import Mathlib

/-!
Verification of `scripts/generate-rss.js` (svetsarennews).

The script is a one-shot pipeline: fetch one HTML page, extract news items
(title, Swedish date, link, description), deduplicate, sort, cap at 50,
serialize to RSS 2.0 and write a file.  This file gives a shallow
embedding of that pipeline: pure JS functions become Lean functions,
the cheerio document is a node tree, machine arithmetic is `Int`/`Nat`,
and the ECMAScript semantics of `Date.UTC`, `String.prototype.trim`,
regular-expression matching and stable `Array.prototype.sort` are spelled
out explicitly where the script relies on them.
-/

namespace Svetsaren

/-! ## ECMAScript character classes

`\s` in a JS regular expression and `String.prototype.trim` both use the
WhiteSpace ∪ LineTerminator set (ECMA-262): TAB, LF, VT, FF, CR, SP, NBSP,
ZWNBSP and the Unicode space separators. -/

/-- The ECMAScript whitespace characters (WhiteSpace ∪ LineTerminator). -/
def jsWsChars : List Char :=
  ['\u0009', '\u000A', '\u000B', '\u000C', '\u000D', '\u0020', '\u00A0',
   '\u1680', '\u2000', '\u2001', '\u2002', '\u2003', '\u2004', '\u2005',
   '\u2006', '\u2007', '\u2008', '\u2009', '\u200A', '\u2028', '\u2029',
   '\u202F', '\u205F', '\u3000', '\uFEFF']

/-- `\s` of a JS regex / the character set trimmed by `String.prototype.trim`. -/
def isWsCh (c : Char) : Bool := jsWsChars.contains c

/-- `\d` of a JS regex: the ASCII digits. -/
def isDigitCh (c : Char) : Bool := 48 ≤ c.toNat && c.toNat ≤ 57

/-- ASCII lower-casing, the canonicalisation relevant to a case-insensitive
JS regex without the `u` flag matching the (all-ASCII) Swedish month names,
and to `String.prototype.toLowerCase` on those matched (all-ASCII) names. -/
def lcCh (c : Char) : Char :=
  if 65 ≤ c.toNat && c.toNat ≤ 90 then Char.ofNat (c.toNat + 32) else c

/-- Value of an ASCII digit. -/
def digitVal (c : Char) : Nat := c.toNat - 48

/-- `parseInt(s, 10)` on a string of ASCII digits. -/
def parseDigitsVal (l : List Char) : Nat := l.foldl (fun a c => 10 * a + digitVal c) 0

/-- `String.prototype.trim`: strip leading and trailing JS whitespace. -/
def jsTrim (s : String) : String :=
  ⟨((s.data.dropWhile isWsCh).reverse.dropWhile isWsCh).reverse⟩

/-! ## The `SWEDISH_MONTHS` table (generate-rss.js lines 13–26) -/

/-- The `SWEDISH_MONTHS` table: month name → 0-based month index. -/
def SWEDISH_MONTHS : List (List Char × Nat) :=
  [("januari".data, 0), ("februari".data, 1), ("mars".data, 2),
   ("april".data, 3), ("maj".data, 4), ("juni".data, 5),
   ("juli".data, 6), ("augusti".data, 7), ("september".data, 8),
   ("oktober".data, 9), ("november".data, 10), ("december".data, 11)]

/-- The month-name alternation of the date regex, in source order (it lists
exactly the keys of `SWEDISH_MONTHS`). -/
def monthNames : List (List Char) := SWEDISH_MONTHS.map (fun p => p.1)

/-! ## The date regular expression

`parseSwedishDate` (lines 42–55) matches
`/(\d{1,2})\s+(januari|…|december)\s+(\d{4})/i` against the text with
`String.prototype.match` (leftmost match, greedy quantifiers with
backtracking).  Below is a matcher specialised to exactly this pattern.

Two remarks on faithfulness to the backtracking semantics:
* `\s+` is implemented as maximal munch.  This is extensionally equal to
  greedy-with-backtracking here because the token after each `\s+`
  (a month-name letter, resp. a digit) can never be a whitespace
  character, so shorter munches always fail.
* `(\d{1,2})` is implemented with genuine backtracking: two digits are
  tried first, then one. -/

/-- Split off the maximal leading run of JS whitespace. -/
def munchWs : List Char → List Char × List Char
  | [] => ([], [])
  | c :: cs =>
      if isWsCh c then
        let p := munchWs cs
        (c :: p.1, p.2)
      else ([], c :: cs)

/-- Case-insensitively strip a (lower-case) literal pattern from the front of
the input; returns the matched input characters and the remainder. -/
def stripCI : List Char → List Char → Option (List Char × List Char)
  | [], cs => some ([], cs)
  | _ :: _, [] => none
  | p :: ps, c :: cs =>
      if lcCh c = p then (stripCI ps cs).map (fun r => (c :: r.1, r.2)) else none

/-- `(\d{4})`: exactly four ASCII digits from the front. -/
def take4Digits : List Char → Option (List Char × List Char)
  | c1 :: c2 :: c3 :: c4 :: rest =>
      if isDigitCh c1 && isDigitCh c2 && isDigitCh c3 && isDigitCh c4 then
        some ([c1, c2, c3, c4], rest)
      else none
  | _ => none

/-- `\s+(\d{4})` after the month name: year digits on success. -/
def afterMonth (cs : List Char) : Option (List Char) :=
  let p := munchWs cs
  if p.1.isEmpty then none else (take4Digits p.2).map (fun r => r.1)

/-- The month alternation followed by `\s+(\d{4})`, trying the alternatives
in source order with backtracking; returns (matched month text, year digits). -/
def matchMonthTail : List (List Char) → List Char → Option (List Char × List Char)
  | [], _ => none
  | n :: ns, cs =>
      match stripCI n cs with
      | some r =>
          match afterMonth r.2 with
          | some ys => some (r.1, ys)
          | none => matchMonthTail ns cs
      | none => matchMonthTail ns cs

/-- `\s+(month)\s+(\d{4})`, the part of the pattern after the day digits. -/
def matchTail (cs : List Char) : Option (List Char × List Char) :=
  let p := munchWs cs
  if p.1.isEmpty then none else matchMonthTail monthNames p.2

/-- Try the whole pattern at the current position: greedy `(\d{1,2})`
(two digits first, backtracking to one), then `matchTail`.  On success,
the three capture groups (day digits, month text as in the input, year
digits). -/
def matchAt : List Char → Option (List Char × List Char × List Char)
  | [] => none
  | c1 :: rest1 =>
      if isDigitCh c1 then
        match rest1 with
        | c2 :: rest2 =>
            if isDigitCh c2 then
              match matchTail rest2 with
              | some r => some ([c1, c2], r.1, r.2)
              | none => (matchTail rest1).map (fun r => ([c1], r.1, r.2))
            else (matchTail rest1).map (fun r => ([c1], r.1, r.2))
        | [] => (matchTail rest1).map (fun r => ([c1], r.1, r.2))
      else none

/-- `String.prototype.match` without the `g` flag: try the pattern at each
position from the left, returning the first success. -/
def searchFrom : List Char → Option (List Char × List Char × List Char)
  | [] => none
  | c :: cs =>
      match matchAt (c :: cs) with
      | some r => some r
      | none => searchFrom cs

/-! ## ECMAScript `Date.UTC` (used at line 53)

`Date.UTC(year, monthIndex, day, 12, 0, 0)` per ECMA-262: years 0–99 are
read as 1900+year; `MakeDay` normalises the month by carrying into the
year, computes the day number from `DayFromYear` plus the in-year offset
of the month (leap-adjusted), plus `day - 1` (so out-of-range days roll
over into neighbouring months); the result is milliseconds since the
epoch.  Divisions are floor divisions (`Int.fdiv`). -/

/-- ECMA `Date.UTC` year coercion: 0 ≤ y ≤ 99 means 1900 + y. -/
def yearAdjust (y : Nat) : Int := if y ≤ 99 then ((1900 + y : Nat) : Int) else (y : Int)

/-- ECMA `InLeapYear`, as a condition on the (proleptic Gregorian) year. -/
def isLeap (y : Int) : Bool := (y % 4 == 0 && y % 100 != 0) || y % 400 == 0

/-- ECMA `DayFromYear`: the epoch day number of 1 January of year `y`. -/
def dayFromYear (y : Int) : Int :=
  365 * (y - 1970) + (y - 1969).fdiv 4 - (y - 1901).fdiv 100 + (y - 1601).fdiv 400

/-- Day-of-year on which month `m` (0-based; 12 = end of year) starts,
given whether the year is leap. -/
def monthStartDay (m : Nat) (leap : Bool) : Nat :=
  [0, 31, 59, 90, 120, 151, 181, 212, 243, 273, 304, 334, 365].getD m 365 +
    (if 2 ≤ m && leap then 1 else 0)

/-- ECMA `MakeDay y m d`: epoch day number, with month carried into the
year and day `d` counted from 1 (so `d = 0` or `d >` month length rolls
over). -/
def makeDay (y : Int) (m : Nat) (d : Nat) : Int :=
  let ym : Int := y + (m / 12 : Nat)
  dayFromYear ym + ((monthStartDay (m % 12) (isLeap ym) : Nat) : Int) + ((d : Int) - 1)

/-- `new Date(Date.UTC(year, monthIndex, day, 12, 0, 0)).getTime()`:
the epoch-millisecond value constructed at line 53 of the script. -/
def jsDateUTC (y m d : Nat) : Int :=
  makeDay (yearAdjust y) m d * 86400000 + 43200000

/-- Days in month `m` (0-based) of year `y`. -/
def daysInMonth (m : Nat) (y : Int) : Nat :=
  monthStartDay (m + 1) (isLeap y) - monthStartDay m (isLeap y)

/-- The epoch day of an epoch-millisecond instant (ECMA `Day(t)`). -/
def epochDay (t : Int) : Int := t.fdiv 86400000

/-- "The UTC calendar date of instant `t` is year `y`, month `m` (0-based),
day-of-month `d`" — ECMA-262's `YearFromTime`/`MonthFromTime`/`DateFromTime`
characterisation, unfolded: the epoch day of `t` lies in year `y`'s day
range, within month `m`'s slice of it, at offset `d - 1`. -/
def utcDateIs (t : Int) (y : Int) (m d : Nat) : Prop :=
  m < 12 ∧
  dayFromYear y ≤ epochDay t ∧ epochDay t < dayFromYear (y + 1) ∧
  ((monthStartDay m (isLeap y) : Nat) : Int) ≤ epochDay t - dayFromYear y ∧
  epochDay t - dayFromYear y < ((monthStartDay (m + 1) (isLeap y) : Nat) : Int) ∧
  epochDay t - dayFromYear y - ((monthStartDay m (isLeap y) : Nat) : Int) = (d : Int) - 1

instance (t : Int) (y : Int) (m d : Nat) : Decidable (utcDateIs t y m d) := by
  unfold utcDateIs; infer_instance

/-! ## `parseSwedishDate` (generate-rss.js lines 42–55) -/

/-- `parseSwedishDate(text)`: match the date pattern anywhere in the text;
on a match, `parseInt` the day and year groups, lower-case the month group,
look it up in `SWEDISH_MONTHS`, and build the instant at 12:00:00 UTC via
`Date.UTC`.  `none` models the `null` returns. -/
def parseSwedishDate (text : String) : Option Int :=
  match searchFrom text.data with
  | none => none
  | some (ds, ms, ys) =>
      match (SWEDISH_MONTHS.lookup (ms.map lcCh) : Option Nat) with
      | none => none
      | some mi => some (jsDateUTC (parseDigitsVal ys) mi (parseDigitsVal ds))

/-! ## `toISOString` and `toUTCString` (rendering helpers)

`extractItems` builds the identity key with `date.toISOString()` and the
serializer renders `pubDate` with `Date.prototype.toUTCString` (via
`toRfc822`).  Both are implemented below with the standard civil-from-days
algorithm; the pipeline's theorems use them only as concrete functions. -/

/-- Civil (proleptic Gregorian) date of an epoch day number:
(year, 1-based month, day-of-month). -/
def civilFromDays (z : Int) : Int × Nat × Nat :=
  let z2 := z + 719468
  let era := z2.fdiv 146097
  let doe := (z2 - era * 146097).toNat
  let yoe := (doe - doe / 1460 + doe / 36524 - doe / 146096) / 365
  let doy := doe - (365 * yoe + yoe / 4 - yoe / 100)
  let mp := (5 * doy + 2) / 153
  let d := doy - (153 * mp + 2) / 5 + 1
  let m := if mp < 10 then mp + 3 else mp - 9
  (era * 400 + yoe + (if m ≤ 2 then 1 else 0), m, d)

/-- Left-pad a decimal rendering with zeros to the given width. -/
def padNum (w n : Nat) : String :=
  let s := toString n
  ⟨List.replicate (w - s.length) '0' ++ s.data⟩

/-- `Date.prototype.toISOString` for instants in years 0–9999. -/
def isoString (t : Int) : String :=
  let day := t.fdiv 86400000
  let ms := (t - day * 86400000).toNat
  let c := civilFromDays day
  padNum 4 c.1.toNat ++ "-" ++ padNum 2 c.2.1 ++ "-" ++ padNum 2 c.2.2 ++ "T" ++
    padNum 2 (ms / 3600000) ++ ":" ++ padNum 2 (ms / 60000 % 60) ++ ":" ++
    padNum 2 (ms / 1000 % 60) ++ "." ++ padNum 3 (ms % 1000) ++ "Z"

/-- `toRfc822` (lines 28–30): `new Date(date).toUTCString()`,
e.g. `Thu, 01 Jan 1970 12:00:00 GMT`. -/
def toRfc822 (t : Int) : String :=
  let day := t.fdiv 86400000
  let ms := (t - day * 86400000).toNat
  let c := civilFromDays day
  let wd := ((day + 4).emod 7).toNat
  (["Sun", "Mon", "Tue", "Wed", "Thu", "Fri", "Sat"].getD wd "") ++ ", " ++
    padNum 2 c.2.2 ++ " " ++
    (["Jan", "Feb", "Mar", "Apr", "May", "Jun", "Jul", "Aug", "Sep", "Oct",
      "Nov", "Dec"].getD (c.2.1 - 1) "") ++ " " ++
    padNum 4 c.1.toNat ++ " " ++ padNum 2 (ms / 3600000) ++ ":" ++
    padNum 2 (ms / 60000 % 60) ++ ":" ++ padNum 2 (ms / 1000 % 60) ++ " GMT"

/-! ## The cheerio document model

`cheerio.load(html)` produces a document tree that the script only ever
inspects through: selecting all `<a>` elements, `.find` with a class or
tag selector (proper descendants), `.text()` (concatenated text content),
`.attr('href')`, and `.trim()`.  The tree is modelled as nodes carrying a
tag name, the parsed class-attribute tokens, an optional `href` attribute
and children.  `.find` on a multi-node selection is modelled as the
concatenation of per-node results; cheerio additionally removes duplicate
nodes, which only differs when selected nodes are nested inside each
other. -/

/-- A parsed HTML node: text, or an element with tag, class tokens,
optional `href`, and children. -/
inductive HNode where
  | text : String → HNode
  | elem : String → List String → Option String → List HNode → HNode

/-- Tag name of a node (text nodes have none). -/
def HNode.tag : HNode → String
  | .text _ => ""
  | .elem t _ _ _ => t

/-- Class tokens of a node. -/
def HNode.classes : HNode → List String
  | .text _ => []
  | .elem _ c _ _ => c

/-- The `href` attribute of a node. -/
def HNode.hrefAttr : HNode → Option String
  | .text _ => none
  | .elem _ _ h _ => h

mutual
/-- `.text()` of a single node: concatenated text content, document order. -/
def nodeText : HNode → String
  | .text s => s
  | .elem _ _ _ cs => nodesText cs

/-- `.text()` over a node list. -/
def nodesText : List HNode → String
  | [] => ""
  | n :: ns => nodeText n ++ nodesText ns
end

mutual
/-- A node together with its element descendants, in document (pre-)order;
text nodes contribute nothing. -/
def selfAndDesc : HNode → List HNode
  | .text _ => []
  | .elem t c h cs => .elem t c h cs :: descList cs

/-- Element nodes of a forest, in document order. -/
def descList : List HNode → List HNode
  | [] => []
  | n :: ns => selfAndDesc n ++ descList ns
end

/-- Proper element descendants of a node. -/
def descElems : HNode → List HNode
  | .text _ => []
  | .elem _ _ _ cs => descList cs

/-- All elements of the document (`$('sel')` scans the whole tree). -/
def allElems (doc : List HNode) : List HNode := descList doc

/-- Does the node carry the given class token (`.cls` selector)? -/
def hasClass (cls : String) (n : HNode) : Bool := n.classes.contains cls

/-- `.find(sel)` on a selection: matching proper descendants of each
selected node, concatenated in order. -/
def findIn (sel : List HNode) (p : HNode → Bool) : List HNode :=
  sel.foldr (fun n acc => (descElems n).filter p ++ acc) []

/-- `.text()` on a selection: per-node text contents concatenated. -/
def selText (sel : List HNode) : String :=
  sel.foldl (fun acc n => acc ++ nodeText n) ""

/-- Is `p` a contiguous substring of `l` (JS `String.prototype.includes`)? -/
def startsList (p l : List Char) : Bool := l.take p.length == p

/-- Substring occurrence anywhere in the list. -/
def subAt (p : List Char) : List Char → Bool
  | [] => p.isEmpty
  | c :: cs => startsList p (c :: cs) || subAt p cs

/-- `href.includes('/nyheter/')` (line 129). -/
def hasNyheter (s : String) : Bool := subAt "/nyheter/".data s.data

/-! ## Link resolution (line 147)

`href.startsWith('http') ? href : new URL(href, SOURCE_URL).toString()`.
The WHATWG resolution `new URL(href, SOURCE_URL)` is modelled for hrefs
that are protocol-relative (`//…`), path-absolute (`/…`) or plain
path-relative, built from characters that the URL serializer keeps
verbatim and containing no `.`/`..` segments, query or fragment; the
`GoodHref` predicate below delimits that faithful range (outside it the
real resolver percent-encodes, normalises dot segments, or throws). -/

def SOURCE_URL : String := "https://www.hsb.se/stockholm/brf/svetsaren/nyheter/"

/-- Scheme-and-host part of `SOURCE_URL`. -/
def SOURCE_ORIGIN : String := "https://www.hsb.se"

/-- `String.prototype.startsWith`: code-unit prefix test. -/
def strStartsWith (s p : String) : Bool := s.data.take p.data.length == p.data

/-- Model of `new URL(href, SOURCE_URL).toString()` on its faithful range:
protocol-relative hrefs keep the base scheme, path-absolute hrefs keep the
base origin, relative paths append to the base directory (`SOURCE_URL`
ends in `/`). -/
def resolveAgainstSource (href : String) : String :=
  if strStartsWith href "//" then "https:" ++ href
  else if strStartsWith href "/" then SOURCE_ORIGIN ++ href
  else SOURCE_URL ++ href

/-- The resolved link of line 147. -/
def fullLinkOf (href : String) : String :=
  if strStartsWith href "http" then href else resolveAgainstSource href

/-- ASCII letters and digits. -/
def isAlphaNumCh (c : Char) : Bool :=
  (65 ≤ c.toNat && c.toNat ≤ 90) || (97 ≤ c.toNat && c.toNat ≤ 122) ||
    (48 ≤ c.toNat && c.toNat ≤ 57)

/-- Hrefs on which `resolveAgainstSource` is a faithful model of the WHATWG
resolver: nonempty, built only from unreserved characters and `/`
(no `.`, `:`, `?`, `#`, `%` or characters needing percent-encoding). -/
def GoodHref (href : String) : Prop :=
  href ≠ "" ∧ ∀ c ∈ href.data, (isAlphaNumCh c || c ∈ ['-', '_', '~', '/']) = true

/-- Does the string start with a URI scheme: a letter, then letters,
digits, plus, dash or dot, then a colon?  This is what makes a
URL-reference absolute. -/
def hasSchemeTail : List Char → Bool
  | [] => false
  | c :: cs =>
      if c = ':' then true
      else if isAlphaNumCh c || c = '+' || c = '-' || c = '.' then hasSchemeTail cs
      else false

/-- Absolute URL: a scheme followed by `:`. -/
def isAbsoluteUrl (s : String) : Prop :=
  (match s.data with
   | [] => false
   | c :: cs => ((65 ≤ c.toNat && c.toNat ≤ 90) || (97 ≤ c.toNat && c.toNat ≤ 122))
       && hasSchemeTail cs) = true

instance (s : String) : Decidable (isAbsoluteUrl s) := by
  unfold isAbsoluteUrl; infer_instance

/-! ## `extractItems` (generate-rss.js lines 57–170)

The first loop of the function (`$('.item').each`, lines 79–118) computes
local values and pushes nothing — it has no observable effect and is not
modelled.  The effective pass is `$('a').each` (lines 124–160): for each
anchor whose `href` contains `/nyheter/` and which contains an
`.iteminformation` block, take the trimmed `h3` text as title, the trimmed
`.itemdate` text as the date string and the trimmed `.itemdescription`
text as description; skip candidates with empty title or date text or an
unparsable date; resolve the link; drop candidates whose
`title::date.toISOString()` key was already seen; push the item.  Then
(lines 162–169) keep the first item per guid, sort by date descending
(JS `sort` is stable) and truncate to 50. -/

/-- A pushed feed item (title, link, guid, pubDate in epoch ms,
description). -/
structure FeedItem where
  title : String
  link : String
  guid : String
  pubDate : Int
  description : String
deriving DecidableEq, Repr

/-- The identity key of lines 149–151: `title::date.toISOString()`. -/
def itemKey (title : String) (t : Int) : String := title ++ "::" ++ isoString t

/-- Key of an already-built item. -/
def keyOf (it : FeedItem) : String := itemKey it.title it.pubDate

/-- The `seen` set and `items` array accumulated by the `$('a').each`
callback. -/
structure ExtractState where
  seen : List String
  items : List FeedItem
deriving Repr

/-- One run of the `$('a').each` callback (lines 124–160). -/
def processAnchor (st : ExtractState) (a : HNode) : ExtractState :=
  match a.hrefAttr with
  | none => st
  | some href =>
      if hasNyheter href then
        let infos := (descElems a).filter (hasClass "iteminformation")
        if infos.isEmpty then st
        else
          let title := jsTrim (selText (findIn infos (fun n => n.tag == "h3")))
          let dateStr := jsTrim (selText (findIn infos (hasClass "itemdate")))
          let descr := jsTrim (selText (findIn infos (hasClass "itemdescription")))
          if title = "" ∨ dateStr = "" then st
          else
            match parseSwedishDate dateStr with
            | none => st
            | some date =>
                let link := fullLinkOf href
                let key := itemKey title date
                if key ∈ st.seen then st
                else ⟨key :: st.seen, st.items ++ [⟨title, link, link, date, descr⟩]⟩
      else st

/-- The candidate items pushed by the `$('a').each` pass, in push order. -/
def collectCandidates (doc : List HNode) : List FeedItem :=
  (((allElems doc).filter (fun n => n.tag == "a")).foldl processAnchor ⟨[], []⟩).items

/-- One step of the `byGuid` map construction (lines 163–166): insert the
item only if its guid is not present yet; `Map` iteration order is
insertion order. -/
def dedupStep (acc : List FeedItem) (it : FeedItem) : List FeedItem :=
  if acc.any (fun a => a.guid == it.guid) then acc else acc ++ [it]

/-- `Array.from(byGuid.values())`: first item per guid, in first-seen
order. -/
def dedupByGuid (l : List FeedItem) : List FeedItem := l.foldl dedupStep []

/-- Recursion-friendly form of `dedupByGuid` (proved equal to it below):
keep the head, drop the later items carrying its guid, recurse. -/
def dedupRec (l : List FeedItem) : List FeedItem :=
  match l with
  | [] => []
  | x :: xs => x :: dedupRec (xs.filter (fun y => !(y.guid == x.guid)))
termination_by l.length
decreasing_by
  simp only [List.length_cons]
  exact Nat.lt_succ_of_le (List.length_filter_le _ _)

/-- Stable insertion of one item into a list sorted by `pubDate`
descending: the new item goes before the first element not newer than it.
An insertion sort built from this is extensionally the (stable)
`unique.sort((a, b) => b.pubDate - a.pubDate)` of line 168, because a
stable sort of a total preorder is unique. -/
def sortInsert (x : FeedItem) : List FeedItem → List FeedItem
  | [] => [x]
  | y :: ys => if y.pubDate ≤ x.pubDate then x :: y :: ys else y :: sortInsert x ys

/-- Stable sort by `pubDate` descending (line 168). -/
def sortByDateDesc (l : List FeedItem) : List FeedItem := l.foldr sortInsert []

/-- Lines 162–169: guid dedup, stable date-descending sort, `slice(0, 50)`. -/
def finalize (l : List FeedItem) : List FeedItem :=
  (sortByDateDesc (dedupByGuid l)).take 50

/-- `extractItems($)` (lines 57–170). -/
def extractItems (doc : List HNode) : List FeedItem :=
  finalize (collectCandidates doc)

/-- The hrefs of all anchor elements of the document. -/
def anchorHrefs (doc : List HNode) : List String :=
  ((allElems doc).filter (fun n => n.tag == "a")).filterMap HNode.hrefAttr

/-! ## The RSS document and `main` (generate-rss.js lines 172–221)

The `rss` npm package is third-party; `rssDocument` below models the
RSS 2.0 document it serializes for the feed configuration of lines
187–206: the channel metadata of the `new RSS({...})` call followed by one
`<item>` per extracted item (`description` omitted when falsy, guid a
permalink, dates in RFC-822 form). -/

/-- An XML tree. -/
inductive Xml where
  | elem : String → List (String × String) → List Xml → Xml
  | txt : String → Xml

/-- Escape the XML special characters of text content. -/
def escapeXml (s : String) : String :=
  ⟨s.data.foldr
    (fun c acc =>
      (match c with
       | '&' => "&amp;".data
       | '<' => "&lt;".data
       | '>' => "&gt;".data
       | '"' => "&quot;".data
       | _ => [c]) ++ acc) []⟩

/-- Render attributes. -/
def attrsRender (l : List (String × String)) : String :=
  l.foldl (fun acc p => acc ++ " " ++ p.1 ++ "=\"" ++ escapeXml p.2 ++ "\"") ""

mutual
/-- Serialize an XML tree. -/
def xmlRender : Xml → String
  | .txt s => escapeXml s
  | .elem n attrs cs => "<" ++ n ++ attrsRender attrs ++ ">" ++ xmlRenderList cs ++ "</" ++ n ++ ">"

/-- Serialize a list of XML trees. -/
def xmlRenderList : List Xml → String
  | [] => ""
  | x :: xs => xmlRender x ++ xmlRenderList xs
end

/-- Valid characters of an XML name (ASCII range used here). -/
def xmlNameCh (c : Char) : Bool :=
  isAlphaNumCh c || c = ':' || c = '-' || c = '_' || c = '.'

/-- A usable XML name: nonempty, valid characters, not starting with a
digit, `-` or `.`. -/
def xmlNameOk (s : String) : Bool :=
  (match s.data with
   | [] => false
   | c :: _ => !(48 ≤ c.toNat && c.toNat ≤ 57) && c ≠ '-' && c ≠ '.') &&
    s.data.all xmlNameCh

mutual
/-- Well-formedness of the XML tree: every element and attribute name is a
valid XML name (text is escaped by the serializer, so content never breaks
markup). -/
def xmlWF : Xml → Bool
  | .txt _ => true
  | .elem n attrs cs => xmlNameOk n && attrs.all (fun p => xmlNameOk p.1) && xmlWFList cs

/-- Well-formedness of a forest. -/
def xmlWFList : List Xml → Bool
  | [] => true
  | x :: xs => xmlWF x && xmlWFList xs
end

/-- Feed title (line 188). -/
def FEED_TITLE : String := "BRF Svetsaren – Nyheter"

/-- Feed description (line 189). -/
def FEED_DESCRIPTION : String := "RSS 2.0-flöde genererat från HSB BRF Svetsarens nyhetssida."

/-- `<item>` element for one feed item (lines 198–206): title, optional
description (omitted when the trimmed description is empty, i.e. falsy),
link, permalink guid, RFC-822 pubDate. -/
def itemXml (it : FeedItem) : Xml :=
  .elem "item" []
    ([Xml.elem "title" [] [.txt it.title]] ++
      (if it.description = "" then [] else [Xml.elem "description" [] [.txt it.description]]) ++
      [Xml.elem "link" [] [.txt it.link],
       Xml.elem "guid" [("isPermaLink", "true")] [.txt it.guid],
       Xml.elem "pubDate" [] [.txt (toRfc822 it.pubDate)]])

/-- The `<channel>` element: metadata of the `new RSS({...})` options
(lines 187–196; `now` is the build-time `toRfc822(new Date())`), then the
items. -/
def channelXml (now : String) (items : List FeedItem) : Xml :=
  .elem "channel" []
    ([Xml.elem "title" [] [.txt FEED_TITLE],
      Xml.elem "description" [] [.txt FEED_DESCRIPTION],
      Xml.elem "link" [] [.txt SOURCE_URL],
      Xml.elem "atom:link" [("href", "feed.xml"), ("rel", "self"), ("type", "application/rss+xml")] [],
      Xml.elem "language" [] [.txt "sv-SE"],
      Xml.elem "pubDate" [] [.txt now],
      Xml.elem "ttl" [] [.txt "1440"],
      Xml.elem "generator" [] [.txt "svetsarennews (GitHub Actions)"]] ++
      items.map itemXml)

/-- The whole RSS document. -/
def rssDocument (now : String) (items : List FeedItem) : Xml :=
  .elem "rss" [("version", "2.0"), ("xmlns:atom", "http://www.w3.org/2005/Atom")]
    [channelXml now items]

/-- Child element names of an XML element. -/
def childNames : Xml → List String
  | .txt _ => []
  | .elem _ _ cs => cs.filterMap (fun c => match c with | .elem n _ _ => some n | .txt _ => none)

/-- The response of the single `fetch` call (lines 173–178): status and
body; `ok` is derived as in node-fetch. -/
structure FetchResponse where
  status : Nat
  statusText : String
  body : String
deriving DecidableEq, Repr

/-- `res.ok`: HTTP status in the 2xx range. -/
def FetchResponse.ok (r : FetchResponse) : Bool := 200 ≤ r.status && r.status < 300

/-- Outcome of the fetch: a response, or a thrown network/timeout error. -/
inductive FetchOutcome where
  | response : FetchResponse → FetchOutcome
  | netError : String → FetchOutcome
deriving DecidableEq, Repr

/-- Observable outcome of one run: the process exit code and the content
written to `docs/feed.xml` (`none` when nothing was written). -/
structure RunResult where
  exitCode : Nat
  written : Option String
deriving DecidableEq, Repr

/-- `main()` plus the `main().catch(...)` handler (lines 172–221): a thrown
fetch error or a non-ok status reaches the catch (exit 1, no write);
otherwise the body is parsed (`loadHtml` stands for `cheerio.load`), items
are extracted, the feed is serialized and written, and the process exits 0.
The filesystem write itself is modelled as succeeding. -/
def runMain (f : FetchOutcome) (loadHtml : String → List HNode) (now : String) : RunResult :=
  match f with
  | .netError _ => ⟨1, none⟩
  | .response r =>
      if r.ok then
        ⟨0, some (xmlRender (rssDocument now (extractItems (loadHtml r.body))))⟩
      else ⟨1, none⟩

/-! ## Declarative specification of the date pattern

`MatchDecomp cs ds w1 ms w2 ys rest mi` says: `cs` decomposes, from its
first character on, into 1–2 day digits, whitespace, a (case-insensitive)
Swedish month name with index `mi`, whitespace, four year digits, and an
arbitrary remainder — i.e. the date regex matches at the head of `cs` with
capture groups `ds`, `ms`, `ys`. -/

/-- Declarative match of the date pattern at the head of `cs`. -/
def MatchDecomp (cs ds w1 ms w2 ys rest : List Char) (mi : Nat) : Prop :=
  ds ≠ [] ∧ ds.length ≤ 2 ∧ (∀ c ∈ ds, isDigitCh c = true) ∧
  w1 ≠ [] ∧ (∀ c ∈ w1, isWsCh c = true) ∧
  mi < 12 ∧ ms.map lcCh = monthNames.getD mi [] ∧
  w2 ≠ [] ∧ (∀ c ∈ w2, isWsCh c = true) ∧
  ys.length = 4 ∧ (∀ c ∈ ys, isDigitCh c = true) ∧
  cs = ds ++ w1 ++ ms ++ w2 ++ ys ++ rest

/-- The date pattern occurs at the head of `cs`. -/
def IsMatchAt (cs : List Char) : Prop :=
  ∃ ds w1 ms w2 ys rest mi, MatchDecomp cs ds w1 ms w2 ys rest mi

/-! ## Concrete test documents

Small input trees (in the shape the HSB news page uses, per the comments
at lines 61–75 of the script) on which the theorems below are
instantiated. -/

/-- An `.iteminformation` block with heading, date and description. -/
def infoBlock (rawTitle dateTxt descTxt : String) : HNode :=
  .elem "div" ["iteminformation"] none
    [.elem "h3" [] none [.text rawTitle],
     .elem "div" ["itemdate"] none [.text dateTxt],
     .elem "div" ["itemdescription"] none [.text descTxt]]

/-- A news anchor wrapping an `.iteminformation` block. -/
def newsAnchor (href rawTitle dateTxt descTxt : String) : HNode :=
  .elem "a" [] (some href) [infoBlock rawTitle dateTxt descTxt]

/-- Two structured news anchors (titles/dates/hrefs parametric). -/
def twoAnchorDoc (raw1 h1 dt1 raw2 h2 dt2 : String) : List HNode :=
  [newsAnchor h1 raw1 dt1 "", newsAnchor h2 raw2 dt2 ""]

/-- A document whose one structured entry carries the calendar-invalid
date text `29 februari 2023`. -/
def rolloverDoc : List HNode :=
  [newsAnchor "/x/nyheter/a" "Extrastämma" "29 februari 2023" ""]

/-- A structured entry whose href starts with `http` yet is not an
absolute URL. -/
def oddHrefDoc : List HNode :=
  [newsAnchor "httpfoo/nyheter/a" "Titel" "9 april 2024" ""]

/-- A document with no structured news entries at all, but with a block
whose text contains a line of the form `<title> <day> <month> <year>`
(the shape the spec's fallback strategy would match). -/
def fallbackDoc : List HNode :=
  [.elem "div" [] none
    [.elem "p" [] none [.text "Svetsaren nyheter"],
     .elem "p" [] none [.text "• Städdag 9 april 2024"]]]

/-- Two structured entries with relative hrefs, as in the spec's
end-to-end scenario. -/
def demoDoc : List HNode :=
  [newsAnchor "/stockholm/brf/svetsaren/nyheter/nytt-kosystem-for-p-platser/"
     "Nytt kösystem för p-platser" "02 november 2025" "Beskrivning",
   newsAnchor "/stockholm/brf/svetsaren/nyheter/varstadning/"
     "Vårstädning" "9 april 2024" ""]

/-- The item extracted from the first entry of `demoDoc`. -/
def demoItemA : FeedItem :=
  ⟨"Nytt kösystem för p-platser",
   "https://www.hsb.se/stockholm/brf/svetsaren/nyheter/nytt-kosystem-for-p-platser/",
   "https://www.hsb.se/stockholm/brf/svetsaren/nyheter/nytt-kosystem-for-p-platser/",
   jsDateUTC 2025 10 2, "Beskrivning"⟩

/-- 51 candidate items with pairwise distinct guids and dates. -/
def demoFeed : List FeedItem :=
  (List.range 51).map (fun i => ⟨"t" ++ toString i, "g" ++ toString i,
    "g" ++ toString i, (i : Int), ""⟩)

/-! ## Lemmas on the date matcher -/

/-! ### Character-class facts -/

lemma ws_props (c : Char) (h : isWsCh c = true) :
    isDigitCh c = false ∧ lcCh c = c ∧ ¬(97 ≤ c.toNat ∧ c.toNat ≤ 122) := by
  have h2 : List.elem c jsWsChars = true := h
  rw [List.elem_eq_mem, decide_eq_true_eq] at h2
  fin_cases h2 <;> exact ⟨by decide, by decide, by decide⟩

lemma digit_not_ws (c : Char) (h : isDigitCh c = true) : isWsCh c = false := by
  rcases hw : isWsCh c with _ | _
  · rfl
  · exact absurd h (by simp [(ws_props c hw).1])

lemma lc_lower_not_ws (c : Char) (p : Char) (hlc : lcCh c = p)
    (hp : 97 ≤ p.toNat ∧ p.toNat ≤ 122) : isWsCh c = false := by
  rcases hw : isWsCh c with _ | _
  · rfl
  · obtain ⟨-, hself, hrange⟩ := ws_props c hw
    rw [hself] at hlc
    exact absurd (hlc ▸ hp) hrange

/-! ### `munchWs` -/

lemma munchWs_not_ws (c : Char) (cs : List Char) (h : isWsCh c = false) :
    munchWs (c :: cs) = ([], c :: cs) := by
  simp [munchWs, h]

lemma munchWs_ws_append (w : List Char) (hw : ∀ c ∈ w, isWsCh c = true)
    (c : Char) (cs : List Char) (hc : isWsCh c = false) :
    munchWs (w ++ c :: cs) = (w, c :: cs) := by
  induction w with
  | nil => simpa using munchWs_not_ws c cs hc
  | cons a w ih =>
      have ha : isWsCh a = true := hw a (by simp)
      have ih2 := ih (fun x hx => hw x (by simp [hx]))
      simp [munchWs, ha, ih2]

lemma munchWs_sound (cs : List Char) :
    cs = (munchWs cs).1 ++ (munchWs cs).2 ∧
    (∀ c ∈ (munchWs cs).1, isWsCh c = true) ∧
    (∀ c cs2, (munchWs cs).2 = c :: cs2 → isWsCh c = false) := by
  induction cs with
  | nil => simp [munchWs]
  | cons a cs ih =>
      rcases ha : isWsCh a with _ | _
      · refine ⟨by simp [munchWs, ha], by simp [munchWs, ha], ?_⟩
        intro c cs2 h
        simp only [munchWs, ha, Bool.false_eq_true, if_false] at h
        cases h
        exact ha
      · obtain ⟨h1, h2, h3⟩ := ih
        refine ⟨?_, ?_, ?_⟩
        · simpa [munchWs, ha] using congrArg (a :: ·) h1
        · intro c hc
          simp only [munchWs, ha, if_true] at hc
          rcases List.mem_cons.mp hc with rfl | hc
          · exact ha
          · exact h2 c hc
        · intro c cs2 h
          simp only [munchWs, ha, if_true] at h
          exact h3 c cs2 h

/-! ### `stripCI` -/

lemma stripCI_sound (p : List Char) :
    ∀ cs m r, stripCI p cs = some (m, r) → cs = m ++ r ∧ m.map lcCh = p := by
  induction p with
  | nil =>
      intro cs m r h
      simp only [stripCI, Option.some.injEq, Prod.mk.injEq] at h
      obtain ⟨rfl, rfl⟩ := h
      simp
  | cons a p ih =>
      intro cs m r h
      cases cs with
      | nil => simp [stripCI] at h
      | cons c cs =>
          simp only [stripCI] at h
          by_cases hc : lcCh c = a
          · rw [if_pos hc] at h
            cases hs : stripCI p cs with
            | none => rw [hs] at h; simp at h
            | some pr =>
                obtain ⟨m2, r2⟩ := pr
                rw [hs] at h
                have h4 : (c :: m2, r2) = (m, r) := Option.some.inj h
                obtain ⟨h1, h2⟩ := ih cs m2 r2 hs
                cases h4
                exact ⟨by simp [h1], by simp [h2, hc]⟩
          · rw [if_neg hc] at h
            cases h

lemma stripCI_of (p m r : List Char) (h : m.map lcCh = p) :
    stripCI p (m ++ r) = some (m, r) := by
  induction m generalizing p with
  | nil => cases h; rfl
  | cons c m ih =>
      cases h
      have h2 : stripCI (List.map lcCh m) (m ++ r) = some (m, r) := ih _ rfl
      show stripCI (lcCh c :: List.map lcCh m) ((c :: m) ++ r) = some (c :: m, r)
      simp [stripCI, h2]

lemma stripCI_take (p cs m r : List Char) (h : stripCI p cs = some (m, r)) :
    m = cs.take p.length := by
  obtain ⟨h1, h2⟩ := stripCI_sound p cs m r h
  have hm : m.length = p.length := by
    simpa using congrArg List.length h2
  subst h1
  simp [hm, List.take_left, List.take_append_of_le_length]

/-! ### `take4Digits` -/

lemma take4Digits_of (ys rest : List Char) (h4 : ys.length = 4)
    (hd : ∀ c ∈ ys, isDigitCh c = true) :
    take4Digits (ys ++ rest) = some (ys, rest) := by
  match ys, h4 with
  | [c1, c2, c3, c4], _ =>
      simp only [List.cons_append, List.nil_append, take4Digits]
      rw [if_pos]
      simp only [hd c1 (by simp), hd c2 (by simp), hd c3 (by simp), hd c4 (by simp)]
      rfl

lemma take4Digits_sound (cs ys rest : List Char)
    (h : take4Digits cs = some (ys, rest)) :
    cs = ys ++ rest ∧ ys.length = 4 ∧ ∀ c ∈ ys, isDigitCh c = true := by
  match cs, h with
  | c1 :: c2 :: c3 :: c4 :: cs2, h =>
      simp only [take4Digits] at h
      by_cases hc : (isDigitCh c1 && isDigitCh c2 && isDigitCh c3 && isDigitCh c4) = true
      · rw [if_pos hc] at h
        simp only [Option.some.injEq, Prod.mk.injEq] at h
        obtain ⟨h1, h2⟩ := h
        subst h1; subst h2
        simp only [Bool.and_eq_true] at hc
        refine ⟨by simp, by simp, ?_⟩
        intro c hcm
        simp only [List.mem_cons, List.not_mem_nil, or_false] at hcm
        rcases hcm with rfl | rfl | rfl | rfl
        · exact hc.1.1.1
        · exact hc.1.1.2
        · exact hc.1.2
        · exact hc.2
      · rw [if_neg hc] at h; cases h

/-! ### Month-name table facts (by computation on the 12 concrete names) -/

lemma monthNames_chars : ∀ n ∈ monthNames, n ≠ [] ∧
    ∀ c ∈ n, 97 ≤ c.toNat ∧ c.toNat ≤ 122 := by decide

lemma getD_mem_monthNames (mi : Nat) (hmi : mi < 12) :
    monthNames.getD mi [] ∈ monthNames := by
  interval_cases mi <;> decide

/-- No month name is a prefix of a different month name. -/
lemma monthNames_no_clash (mi : Nat) (hmi : mi < 12) :
    ∀ p ∈ monthNames, p = monthNames.getD mi [] ∨
      (¬ p = (monthNames.getD mi []).take p.length ∧
       ¬ monthNames.getD mi [] = p.take (monthNames.getD mi []).length) := by
  interval_cases mi <;> decide

lemma mem_monthNames_idx (n : List Char) (h : n ∈ monthNames) :
    ∃ mi, mi < 12 ∧ monthNames.getD mi [] = n := by
  simp only [monthNames, SWEDISH_MONTHS, List.map_cons, List.map_nil,
    List.mem_cons, List.not_mem_nil, or_false] at h
  rcases h with rfl | rfl | rfl | rfl | rfl | rfl | rfl | rfl | rfl | rfl | rfl | rfl
  · exact ⟨0, by decide, rfl⟩
  · exact ⟨1, by decide, rfl⟩
  · exact ⟨2, by decide, rfl⟩
  · exact ⟨3, by decide, rfl⟩
  · exact ⟨4, by decide, rfl⟩
  · exact ⟨5, by decide, rfl⟩
  · exact ⟨6, by decide, rfl⟩
  · exact ⟨7, by decide, rfl⟩
  · exact ⟨8, by decide, rfl⟩
  · exact ⟨9, by decide, rfl⟩
  · exact ⟨10, by decide, rfl⟩
  · exact ⟨11, by decide, rfl⟩

/-- The head of a string that lower-cases to a month name is not
whitespace. -/
lemma month_text_head (ms q : List Char) (hq : q ∈ monthNames)
    (hms : ms.map lcCh = q) :
    ∃ mc ms2, ms = mc :: ms2 ∧ isWsCh mc = false := by
  obtain ⟨hne, hchars⟩ := monthNames_chars q hq
  cases ms with
  | nil => exact absurd hms.symm hne
  | cons mc ms2 =>
      refine ⟨mc, ms2, rfl, ?_⟩
      cases q with
      | nil => exact absurd rfl hne
      | cons qc q2 =>
          have h1 : lcCh mc = qc := by
            have := hms
            simp only [List.map_cons, List.cons.injEq] at this
            exact this.1
          exact lc_lower_not_ws mc qc h1 (hchars qc (by simp))

/-! ### `matchMonthTail`, `matchTail` -/

lemma mmt_skip (n : List Char) (ns : List (List Char)) (cs : List Char)
    (h : stripCI n cs = none) :
    matchMonthTail (n :: ns) cs = matchMonthTail ns cs := by
  simp [matchMonthTail, h]

lemma mmt_hit (n : List Char) (ns : List (List Char)) (cs m r ys : List Char)
    (hs : stripCI n cs = some (m, r)) (ha : afterMonth r = some ys) :
    matchMonthTail (n :: ns) cs = some (m, ys) := by
  simp [matchMonthTail, hs, ha]

/-- If `stripCI p` succeeds on `ms ++ t` and `ms` lower-cases to `q`,
then `p` and `q` are take-prefixes of one another. -/
lemma strip_clash (p q ms t : List Char) (hms : ms.map lcCh = q)
    (x : List Char × List Char) (hx : stripCI p (ms ++ t) = some x) :
    p = q.take p.length ∨ q = p.take q.length := by
  obtain ⟨m, r⟩ := x
  have htake := stripCI_take p (ms ++ t) m r hx
  obtain ⟨heq, hmap⟩ := stripCI_sound p (ms ++ t) m r hx
  by_cases hle : p.length ≤ ms.length
  · left
    have hm : m = ms.take p.length := by
      rw [htake, List.take_append_of_le_length hle]
    calc p = m.map lcCh := hmap.symm
      _ = (ms.take p.length).map lcCh := by rw [hm]
      _ = (ms.map lcCh).take p.length := List.map_take _ _ _
      _ = q.take p.length := by rw [hms]
  · right
    have hle2 : ms.length ≤ p.length := le_of_lt (not_le.mp hle)
    have hm : m.take ms.length = ms := by
      rw [htake, List.take_take, min_eq_left hle2, List.take_left]
    have hql : q.length = ms.length := by
      simpa using (congrArg List.length hms).symm
    calc q = ms.map lcCh := hms.symm
      _ = (m.take ms.length).map lcCh := by rw [hm]
      _ = (m.map lcCh).take ms.length := List.map_take _ _ _
      _ = p.take q.length := by rw [hmap, hql]

/-- `matchMonthTail` on text beginning with (a case variant of) the
month name `monthNames.getD mi []`: the earlier alternatives fail
(no month name is a prefix of another), the target matches exactly. -/
lemma mmt_target (mi : Nat) (_hmi : mi < 12) :
    ∀ (names : List (List Char)),
    (∀ p ∈ names, p = monthNames.getD mi [] ∨
      (¬ p = (monthNames.getD mi []).take p.length ∧
       ¬ monthNames.getD mi [] = p.take (monthNames.getD mi []).length)) →
    monthNames.getD mi [] ∈ names →
    ∀ ms t ys, ms.map lcCh = monthNames.getD mi [] → afterMonth t = some ys →
    matchMonthTail names (ms ++ t) = some (ms, ys) := by
  intro names
  induction names with
  | nil => intro _ hmem; cases hmem
  | cons n ns ih =>
      intro hcond hmem ms t ys hms ham
      by_cases hn : n = monthNames.getD mi []
      · exact mmt_hit n ns (ms ++ t) ms t ys
          (stripCI_of n ms t (hms.trans hn.symm)) ham
      · rcases hcond n (by simp) with h | ⟨h1, h2⟩
        · exact absurd h hn
        · have hnone : stripCI n (ms ++ t) = none := by
            cases hx : stripCI n (ms ++ t) with
            | none => rfl
            | some x =>
                rcases strip_clash n (monthNames.getD mi []) ms t hms x hx with hc | hc
                · exact absurd hc h1
                · exact absurd hc h2
          rw [mmt_skip n ns (ms ++ t) hnone]
          have hmem2 : monthNames.getD mi [] ∈ ns := by
            rcases List.mem_cons.mp hmem with he | he
            · exact absurd he.symm hn
            · exact he
          exact ih (fun p hp => hcond p (by simp [hp])) hmem2 ms t ys hms ham

lemma afterMonth_of (w ys rest : List Char) (hwne : w ≠ [])
    (hw : ∀ c ∈ w, isWsCh c = true) (h4 : ys.length = 4)
    (hd : ∀ c ∈ ys, isDigitCh c = true) :
    afterMonth (w ++ (ys ++ rest)) = some ys := by
  obtain ⟨y0, ys2, rfl⟩ : ∃ y0 ys2, ys = y0 :: ys2 := by
    cases ys with
    | nil => cases h4
    | cons a b => exact ⟨a, b, rfl⟩
  have hy0 : isWsCh y0 = false := digit_not_ws y0 (hd y0 (by simp))
  have hm : munchWs (w ++ (y0 :: ys2 ++ rest)) = (w, y0 :: ys2 ++ rest) := by
    rw [show (y0 :: ys2 ++ rest : List Char) = y0 :: (ys2 ++ rest) from rfl]
    exact munchWs_ws_append w hw y0 (ys2 ++ rest) hy0
  simp only [afterMonth, hm]
  rw [if_neg (by simpa using hwne)]
  rw [take4Digits_of (y0 :: ys2) rest h4 hd]
  rfl

lemma matchTail_of (w1 ms t ys : List Char) (hw1ne : w1 ≠ [])
    (hw1 : ∀ c ∈ w1, isWsCh c = true)
    (mc : Char) (ms2 : List Char) (hmsc : ms = mc :: ms2) (hmc : isWsCh mc = false)
    (hmmt : matchMonthTail monthNames (ms ++ t) = some (ms, ys)) :
    matchTail (w1 ++ (ms ++ t)) = some (ms, ys) := by
  subst hmsc
  have hm : munchWs (w1 ++ (mc :: ms2 ++ t)) = (w1, mc :: ms2 ++ t) := by
    rw [show (mc :: ms2 ++ t : List Char) = mc :: (ms2 ++ t) from rfl]
    exact munchWs_ws_append w1 hw1 mc (ms2 ++ t) hmc
  simp only [matchTail, hm]
  rw [if_neg (by simpa using hw1ne)]
  exact hmmt

/-! ### `matchAt`: completeness (a declarative decomposition makes the
matcher succeed with exactly those groups) -/

lemma matchAt_decomp (cs ds w1 ms w2 ys rest : List Char) (mi : Nat)
    (h : MatchDecomp cs ds w1 ms w2 ys rest mi) :
    matchAt cs = some (ds, ms, ys) := by
  obtain ⟨hdsne, hdslen, hdsdig, hw1ne, hw1, hmi, hms, hw2ne, hw2, hys4, hysdig, hcs⟩ := h
  have hq : monthNames.getD mi [] ∈ monthNames := getD_mem_monthNames mi hmi
  obtain ⟨mc, ms2, hmsc, hmc⟩ := month_text_head ms (monthNames.getD mi []) hq hms
  have hmmt : matchMonthTail monthNames (ms ++ (w2 ++ (ys ++ rest))) = some (ms, ys) :=
    mmt_target mi hmi monthNames (monthNames_no_clash mi hmi) hq ms (w2 ++ (ys ++ rest)) ys hms
      (afterMonth_of w2 ys rest hw2ne hw2 hys4 hysdig)
  have hmt : matchTail (w1 ++ (ms ++ (w2 ++ (ys ++ rest)))) = some (ms, ys) :=
    matchTail_of w1 ms (w2 ++ (ys ++ rest)) ys hw1ne hw1 mc ms2 hmsc hmc hmmt
  match ds, hdsne, hdslen with
  | [d1], _, _ =>
      have hd1 : isDigitCh d1 = true := hdsdig d1 (by simp)
      obtain ⟨wc, w1t, rfl⟩ : ∃ wc w1t, w1 = wc :: w1t := by
        cases w1 with
        | nil => exact absurd rfl hw1ne
        | cons a b => exact ⟨a, b, rfl⟩
      have hwc : isWsCh wc = true := hw1 wc (by simp)
      have hwcd : isDigitCh wc = false := (ws_props wc hwc).1
      rw [List.cons_append] at hmt
      have hcs2 : cs = d1 :: wc :: (w1t ++ (ms ++ (w2 ++ (ys ++ rest)))) := by
        simp only [hcs, List.cons_append, List.nil_append, List.append_assoc]
      rw [hcs2]
      simp only [matchAt, hd1, if_true, hwcd, Bool.false_eq_true, if_false, hmt]
      rfl
  | [d1, d2], _, _ =>
      have hd1 : isDigitCh d1 = true := hdsdig d1 (by simp)
      have hd2 : isDigitCh d2 = true := hdsdig d2 (by simp)
      have hcs2 : cs = d1 :: d2 :: (w1 ++ (ms ++ (w2 ++ (ys ++ rest)))) := by
        simpa [List.append_assoc] using hcs
      rw [hcs2]
      simp only [matchAt, hd1, if_true, hd2, hmt]

/-! ### `matchAt`: soundness (the matcher's groups decompose the input) -/

lemma afterMonth_sound (cs ys : List Char) (h : afterMonth cs = some ys) :
    ∃ w2 rest, cs = w2 ++ (ys ++ rest) ∧ w2 ≠ [] ∧
      (∀ c ∈ w2, isWsCh c = true) ∧ ys.length = 4 ∧
      ∀ c ∈ ys, isDigitCh c = true := by
  simp only [afterMonth] at h
  by_cases he : (munchWs cs).1.isEmpty = true
  · rw [if_pos he] at h; cases h
  · rw [if_neg he] at h
    cases h4 : take4Digits (munchWs cs).2 with
    | none => rw [h4] at h; cases h
    | some pr =>
        obtain ⟨ys2, rest⟩ := pr
        rw [h4] at h
        have hys : ys2 = ys := Option.some.inj h
        obtain ⟨hsplit, hws, -⟩ := munchWs_sound cs
        obtain ⟨hsplit2, hlen, hdig⟩ := take4Digits_sound _ ys2 rest h4
        subst hys
        refine ⟨(munchWs cs).1, rest, ?_, by simpa using he, hws, hlen, hdig⟩
        calc cs = (munchWs cs).1 ++ (munchWs cs).2 := hsplit
          _ = (munchWs cs).1 ++ (ys2 ++ rest) := by rw [hsplit2]

lemma mmt_sound : ∀ (names : List (List Char)) (cs m y : List Char),
    matchMonthTail names cs = some (m, y) →
    ∃ n ∈ names, ∃ r, stripCI n cs = some (m, r) ∧ afterMonth r = some y := by
  intro names
  induction names with
  | nil => intro cs m y h; cases h
  | cons n ns ih =>
      intro cs m y h
      cases hs : stripCI n cs with
      | none =>
          rw [mmt_skip n ns cs hs] at h
          obtain ⟨n2, hn2, r, hr⟩ := ih cs m y h
          exact ⟨n2, by simp [hn2], r, hr⟩
      | some pr =>
          obtain ⟨m2, r2⟩ := pr
          cases ha : afterMonth r2 with
          | none =>
              have hstep : matchMonthTail (n :: ns) cs = matchMonthTail ns cs := by
                simp [matchMonthTail, hs, ha]
              rw [hstep] at h
              obtain ⟨n2, hn2, r, hr⟩ := ih cs m y h
              exact ⟨n2, by simp [hn2], r, hr⟩
          | some ys2 =>
              have hstep : matchMonthTail (n :: ns) cs = some (m2, ys2) := by
                simp [matchMonthTail, hs, ha]
              rw [hstep] at h
              have h2 : (m2, ys2) = (m, y) := Option.some.inj h
              injection h2 with e1 e2
              subst e1; subst e2
              exact ⟨n, by simp, r2, hs, ha⟩

lemma matchTail_sound (cs m y : List Char) (h : matchTail cs = some (m, y)) :
    ∃ w1 t, cs = w1 ++ t ∧ w1 ≠ [] ∧ (∀ c ∈ w1, isWsCh c = true) ∧
      matchMonthTail monthNames t = some (m, y) := by
  simp only [matchTail] at h
  by_cases he : (munchWs cs).1.isEmpty = true
  · rw [if_pos he] at h; cases h
  · rw [if_neg he] at h
    obtain ⟨hsplit, hws, -⟩ := munchWs_sound cs
    exact ⟨(munchWs cs).1, (munchWs cs).2, hsplit, by simpa using he, hws, h⟩

lemma matchAt_sound (cs : List Char) (r : List Char × List Char × List Char)
    (h : matchAt cs = some r) :
    ∃ ds w1 ms w2 ys rest mi, MatchDecomp cs ds w1 ms w2 ys rest mi ∧
      r = (ds, ms, ys) := by
  cases cs with
  | nil => cases h
  | cons c1 rest1 =>
      by_cases hd1 : isDigitCh c1 = true
      · have build1 : ∀ tail1, rest1 = tail1 → matchTail tail1 = some (r.2.1, r.2.2) →
            r.1 = [c1] →
            ∃ ds w1 ms w2 ys rest mi, MatchDecomp (c1 :: rest1) ds w1 ms w2 ys rest mi ∧
              r = (ds, ms, ys) := by
          intro tail1 htl hmt hr1
          obtain ⟨w1, t, hsplit, hw1ne, hw1, hmmt⟩ := matchTail_sound tail1 r.2.1 r.2.2 hmt
          obtain ⟨n, hn, r2, hstrip, ham⟩ := mmt_sound monthNames t r.2.1 r.2.2 hmmt
          obtain ⟨hteq, hmap⟩ := stripCI_sound n t r.2.1 r2 hstrip
          obtain ⟨w2, rest, hr2eq, hw2ne, hw2, hys4, hysdig⟩ :=
            afterMonth_sound r2 r.2.2 ham
          obtain ⟨mi, hmi, hgd⟩ := mem_monthNames_idx n hn
          refine ⟨[c1], w1, r.2.1, w2, r.2.2, rest, mi,
            ⟨by simp, by simp, ?_, hw1ne, hw1, hmi, by rw [hgd]; exact hmap,
             hw2ne, hw2, hys4, hysdig, ?_⟩, ?_⟩
          · intro c hc
            simp only [List.mem_singleton] at hc
            subst hc; exact hd1
          · rw [htl, hsplit, hteq, hr2eq]
            simp [List.append_assoc]
          · rw [← hr1]
        cases rest1 with
        | nil =>
            have hmtnil : matchTail ([] : List Char) = none := by decide
            have hnone : matchAt [c1] = none := by simp [matchAt, hd1, hmtnil]
            rw [hnone] at h
            cases h
        | cons c2 rest2 =>
            by_cases hd2 : isDigitCh c2 = true
            · cases hmt2 : matchTail rest2 with
              | some pr =>
                  have hred : matchAt (c1 :: c2 :: rest2) = some ([c1, c2], pr.1, pr.2) := by
                    simp [matchAt, hd1, hd2, hmt2]
                  rw [hred] at h
                  have hr : r = ([c1, c2], pr.1, pr.2) := (Option.some.inj h).symm
                  obtain ⟨w1, t, hsplit, hw1ne, hw1, hmmt⟩ :=
                    matchTail_sound rest2 pr.1 pr.2 hmt2
                  obtain ⟨n, hn, r2, hstrip, ham⟩ := mmt_sound monthNames t pr.1 pr.2 hmmt
                  obtain ⟨hteq, hmap⟩ := stripCI_sound n t pr.1 r2 hstrip
                  obtain ⟨w2, rest, hr2eq, hw2ne, hw2, hys4, hysdig⟩ :=
                    afterMonth_sound r2 pr.2 ham
                  obtain ⟨mi, hmi, hgd⟩ := mem_monthNames_idx n hn
                  refine ⟨[c1, c2], w1, pr.1, w2, pr.2, rest, mi,
                    ⟨by simp, by simp, ?_, hw1ne, hw1, hmi, by rw [hgd]; exact hmap,
                     hw2ne, hw2, hys4, hysdig, ?_⟩, hr⟩
                  · intro c hc
                    simp only [List.mem_cons, List.not_mem_nil, or_false] at hc
                    rcases hc with rfl | rfl
                    · exact hd1
                    · exact hd2
                  · have hs2 : rest2 = w1 ++ t := hsplit
                    rw [show (c1 :: c2 :: rest2 : List Char) = [c1, c2] ++ rest2 from rfl,
                      hs2, hteq, hr2eq]
                    simp [List.append_assoc]
              | none =>
                  cases hmt1 : matchTail (c2 :: rest2) with
                  | none =>
                      have hred : matchAt (c1 :: c2 :: rest2) = none := by
                        simp [matchAt, hd1, hd2, hmt2, hmt1]
                      rw [hred] at h
                      cases h
                  | some pr =>
                      have hred : matchAt (c1 :: c2 :: rest2) = some ([c1], pr.1, pr.2) := by
                        simp [matchAt, hd1, hd2, hmt2, hmt1]
                      rw [hred] at h
                      have hr : r = ([c1], pr.1, pr.2) := (Option.some.inj h).symm
                      exact build1 (c2 :: rest2) rfl (by rw [hr]; exact hmt1) (by rw [hr])
            · cases hmt1 : matchTail (c2 :: rest2) with
              | none =>
                  have hred : matchAt (c1 :: c2 :: rest2) = none := by
                    simp [matchAt, hd1, hd2, hmt1]
                  rw [hred] at h
                  cases h
              | some pr =>
                  have hred : matchAt (c1 :: c2 :: rest2) = some ([c1], pr.1, pr.2) := by
                    simp [matchAt, hd1, hd2, hmt1]
                  rw [hred] at h
                  have hr : r = ([c1], pr.1, pr.2) := (Option.some.inj h).symm
                  exact build1 (c2 :: rest2) rfl (by rw [hr]; exact hmt1) (by rw [hr])
      · have hnone : matchAt (c1 :: rest1) = none := by
          cases rest1 <;> simp [matchAt, hd1]
        rw [hnone] at h
        cases h


/-- Equivalence: the matcher succeeds exactly on declarative matches. -/
lemma matchAt_isSome_iff (cs : List Char) :
    (matchAt cs).isSome = true ↔ IsMatchAt cs := by
  constructor
  · intro h
    cases hm : matchAt cs with
    | none => rw [hm] at h; cases h
    | some r =>
        obtain ⟨ds, w1, ms, w2, ys, rest, mi, hd, -⟩ := matchAt_sound cs r hm
        exact ⟨ds, w1, ms, w2, ys, rest, mi, hd⟩
  · rintro ⟨ds, w1, ms, w2, ys, rest, mi, hd⟩
    rw [matchAt_decomp cs ds w1 ms w2 ys rest mi hd]
    rfl

/-! ### `searchFrom`: leftmost-match characterisation -/

lemma searchFrom_spec (cs : List Char) :
    (searchFrom cs = none ∧ ∀ j, matchAt (cs.drop j) = none) ∨
    (∃ j r, searchFrom cs = some r ∧ matchAt (cs.drop j) = some r ∧
      ∀ k < j, matchAt (cs.drop k) = none) := by
  induction cs with
  | nil =>
      left
      exact ⟨rfl, fun j => by simp [matchAt]⟩
  | cons c cs ih =>
      cases hm : matchAt (c :: cs) with
      | some r =>
          right
          refine ⟨0, r, ?_, by simpa using hm, by omega⟩
          simp only [searchFrom, hm]
      | none =>
          rcases ih with ⟨h1, h2⟩ | ⟨j, r, h1, h2, h3⟩
          · left
            constructor
            · simp only [searchFrom, hm]; exact h1
            · intro j
              cases j with
              | zero => simpa using hm
              | succ j => simpa using h2 j
          · right
            refine ⟨j + 1, r, ?_, by simpa using h2, ?_⟩
            · simp only [searchFrom, hm]; exact h1
            · intro k hk
              cases k with
              | zero => simpa using hm
              | succ k => simpa using h3 k (by omega)

/-! ### Evaluating `parseSwedishDate` on matched text -/

lemma searchFrom_of_matchAt (cs : List Char) (r : List Char × List Char × List Char)
    (hne : cs ≠ []) (h : matchAt cs = some r) : searchFrom cs = some r := by
  cases cs with
  | nil => exact absurd rfl hne
  | cons c cs2 => simp [searchFrom, h]

lemma month_lookup (mi : Nat) (hmi : mi < 12) :
    SWEDISH_MONTHS.lookup (monthNames.getD mi []) = some mi := by
  interval_cases mi <;> decide

/-- On text that decomposes as the date pattern (from position 0),
`parseSwedishDate` returns `Date.UTC` of the parsed groups. -/
lemma parse_eval (ds w1 ms w2 ys rest : List Char) (mi : Nat)
    (h : MatchDecomp (ds ++ w1 ++ ms ++ w2 ++ ys ++ rest) ds w1 ms w2 ys rest mi) :
    parseSwedishDate ⟨ds ++ w1 ++ ms ++ w2 ++ ys ++ rest⟩ =
      some (jsDateUTC (parseDigitsVal ys) mi (parseDigitsVal ds)) := by
  have hma := matchAt_decomp _ ds w1 ms w2 ys rest mi h
  obtain ⟨hdsne, -, -, -, -, hmi, hms, -⟩ := h
  have hne : ds ++ w1 ++ ms ++ w2 ++ ys ++ rest ≠ [] := by
    cases ds with
    | nil => exact absurd rfl hdsne
    | cons a b => simp
  have hsf := searchFrom_of_matchAt _ _ hne hma
  have hlook : SWEDISH_MONTHS.lookup (ms.map lcCh) = some mi := by
    rw [hms]; exact month_lookup mi hmi
  simp only [parseSwedishDate, hsf, hlook]

/-! ### `Date.UTC` lands on the intended UTC calendar date

For a day that exists in the (month, year) of the call, the epoch-day
arithmetic of `MakeDay` places the instant inside exactly that year, that
month and that day-of-month slot of `utcDateIs`. -/

lemma fdiv_bounds (a b : Int) (hb : 0 < b) :
    b * (a.fdiv b) ≤ a ∧ a < b * (a.fdiv b) + b := by
  have h1 := Int.fdiv_add_fmod a b
  have h2 : 0 ≤ a.fmod b := Int.fmod_nonneg' a hb
  have h3 : a.fmod b < b := Int.fmod_lt_of_pos a hb
  omega

lemma isLeap_iff (y : Int) :
    isLeap y = true ↔ ((y % 4 = 0 ∧ ¬(y % 100 = 0)) ∨ y % 400 = 0) := by
  simp [isLeap, Bool.or_eq_true, Bool.and_eq_true, beq_iff_eq, bne_iff_ne]

lemma dayFromYear_succ (y : Int) :
    dayFromYear (y + 1) = dayFromYear y + (if isLeap y = true then 366 else 365) := by
  have h4 := fdiv_bounds (y - 1969) 4 (by norm_num)
  have h4b := fdiv_bounds (y + 1 - 1969) 4 (by norm_num)
  have h100 := fdiv_bounds (y - 1901) 100 (by norm_num)
  have h100b := fdiv_bounds (y + 1 - 1901) 100 (by norm_num)
  have h400 := fdiv_bounds (y - 1601) 400 (by norm_num)
  have h400b := fdiv_bounds (y + 1 - 1601) 400 (by norm_num)
  unfold dayFromYear
  by_cases hL : isLeap y = true
  · rw [if_pos hL]
    rw [isLeap_iff] at hL
    omega
  · rw [if_neg hL]
    have hL2 : ¬((y % 4 = 0 ∧ ¬(y % 100 = 0)) ∨ y % 400 = 0) := by
      rw [← isLeap_iff]; exact hL
    omega

lemma epochDay_noon (k : Int) : epochDay (k * 86400000 + 43200000) = k := by
  have hb := fdiv_bounds (k * 86400000 + 43200000) 86400000 (by norm_num)
  unfold epochDay at hb ⊢
  omega

lemma utc_of_makeDay (y : Int) (mi d : Nat) (hmi : mi < 12) (hd1 : 1 ≤ d)
    (hd2 : d ≤ daysInMonth mi y) :
    utcDateIs (makeDay y mi d * 86400000 + 43200000) y mi d := by
  have hepd := epochDay_noon (makeDay y mi d)
  have hsucc := dayFromYear_succ y
  have hm12 : mi / 12 = 0 := Nat.div_eq_of_lt hmi
  have hm12b : mi % 12 = mi := Nat.mod_eq_of_lt hmi
  unfold utcDateIs
  rw [hepd]
  unfold makeDay
  rw [hm12, hm12b]
  simp only [Nat.cast_zero, add_zero]
  unfold daysInMonth at hd2
  by_cases hL : isLeap y = true
  · rw [if_pos hL] at hsucc
    rw [hL] at hd2 ⊢
    refine ⟨hmi, ?_, ?_, ?_, ?_, ?_⟩ <;>
      (interval_cases mi <;> simp [monthStartDay] at hd2 ⊢ <;> omega)
  · rw [if_neg hL] at hsucc
    have hL2 : isLeap y = false := by
      rcases hb : isLeap y with _ | _
      · rfl
      · exact absurd hb hL
    rw [hL2] at hd2 ⊢
    refine ⟨hmi, ?_, ?_, ?_, ?_, ?_⟩ <;>
      (interval_cases mi <;> simp [monthStartDay] at hd2 ⊢ <;> omega)

/-! ## Lemmas on the deduplication passes -/

lemma dedupByGuid_eq_rec (l : List FeedItem) : dedupByGuid l = dedupRec l := by
  have key : ∀ n (l : List FeedItem) (acc : List FeedItem), l.length ≤ n →
      l.foldl dedupStep acc =
        acc ++ dedupRec (l.filter (fun y => acc.all (fun a => !(y.guid == a.guid)))) := by
    intro n
    induction n with
    | zero =>
        intro l acc hl
        have : l = [] := List.length_eq_zero.mp (Nat.le_zero.mp hl)
        subst this
        simp [dedupRec]
    | succ n ih =>
        intro l acc hl
        cases l with
        | nil => simp [dedupRec]
        | cons x xs =>
            simp only [List.length_cons, Nat.succ_le_succ_iff] at hl
            by_cases hx : acc.any (fun a => a.guid == x.guid) = true
            · have hstep : dedupStep acc x = acc := by simp [dedupStep, hx]
              have hall : (acc.all (fun a => !(x.guid == a.guid))) = false := by
                rw [List.any_eq_true] at hx
                obtain ⟨a, ha, he⟩ := hx
                rw [List.all_eq_false]
                refine ⟨a, ha, ?_⟩
                simp only [beq_iff_eq] at he ⊢
                simp [he]
              rw [List.foldl_cons, hstep, ih xs acc hl]
              rw [List.filter_cons_of_neg (by simp [hall])]
            · have hstep : dedupStep acc x = acc ++ [x] := by simp [dedupStep, hx]
              have hx2 : (acc.any fun a => a.guid == x.guid) = false := by
                rcases hh : acc.any (fun a => a.guid == x.guid) with _ | _
                · rfl
                · exact absurd hh hx
              have hall : (acc.all (fun a => !(x.guid == a.guid))) = true := by
                rw [List.all_eq_true]
                intro a ha
                rw [List.any_eq_false] at hx2
                have h3 := hx2 a ha
                simp only [beq_iff_eq] at h3
                simp only [Bool.not_eq_true', beq_eq_false_iff_ne]
                exact fun he => h3 he.symm
              rw [List.foldl_cons, hstep, ih xs (acc ++ [x]) hl,
                List.filter_cons_of_pos (by simp [hall])]
              rw [dedupRec]
              have hpred : ∀ y : FeedItem,
                  ((acc ++ [x]).all (fun a => !(y.guid == a.guid))) =
                    (!(y.guid == x.guid) && acc.all (fun a => !(y.guid == a.guid))) := by
                intro y
                rw [List.all_append]
                simp [Bool.and_comm]
              rw [List.filter_congr (fun y _ => hpred y)]
              rw [← List.filter_filter]
              simp [List.append_assoc]
  rw [dedupByGuid, key (l.length) l [] le_rfl]
  simp only [List.all_nil, List.filter_true, List.nil_append]

lemma dedupRec_sublist (l : List FeedItem) : List.Sublist (dedupRec l) l := by
  have key : ∀ n (l : List FeedItem), l.length ≤ n → List.Sublist (dedupRec l) l := by
    intro n
    induction n with
    | zero =>
        intro l hl
        have : l = [] := List.length_eq_zero.mp (Nat.le_zero.mp hl)
        subst this
        simp [dedupRec]
    | succ n ih =>
        intro l hl
        cases l with
        | nil => simp [dedupRec]
        | cons x xs =>
            simp only [List.length_cons, Nat.succ_le_succ_iff] at hl
            rw [dedupRec]
            refine List.Sublist.cons₂ x ?_
            exact (ih _ (le_trans (List.length_filter_le _ _) hl)).trans
              (List.filter_sublist xs)
  exact key l.length l le_rfl

lemma dedupRec_guid_nodup (l : List FeedItem) :
    ((dedupRec l).map (fun it => it.guid)).Nodup := by
  have key : ∀ n (l : List FeedItem), l.length ≤ n →
      ((dedupRec l).map (fun it => it.guid)).Nodup := by
    intro n
    induction n with
    | zero =>
        intro l hl
        have : l = [] := List.length_eq_zero.mp (Nat.le_zero.mp hl)
        subst this
        simp [dedupRec]
    | succ n ih =>
        intro l hl
        cases l with
        | nil => simp [dedupRec]
        | cons x xs =>
            simp only [List.length_cons, Nat.succ_le_succ_iff] at hl
            rw [dedupRec]
            rw [List.map_cons, List.nodup_cons]
            refine ⟨?_, ih _ (le_trans (List.length_filter_le _ _) hl)⟩
            intro hmem
            obtain ⟨it, hit, he⟩ := List.mem_map.mp hmem
            have hit2 : it ∈ xs.filter (fun y => !(y.guid == x.guid)) :=
              (dedupRec_sublist _).subset hit
            have := List.of_mem_filter hit2
            simp only [Bool.not_eq_true', beq_eq_false_iff_ne] at this
            exact this he
  exact key l.length l le_rfl

lemma find?_filter_comm (p q : FeedItem → Bool) (l : List FeedItem)
    (h : ∀ y, p y = true → q y = true) :
    (l.filter q).find? p = l.find? p := by
  induction l with
  | nil => rfl
  | cons x xs ih =>
      by_cases hq : q x = true
      · rw [List.filter_cons_of_pos hq]
        by_cases hp : p x = true
        · rw [List.find?_cons_of_pos _ hp, List.find?_cons_of_pos _ hp]
        · rw [List.find?_cons_of_neg _ (by simp [hp]),
            List.find?_cons_of_neg _ (by simp [hp]), ih]
      · have hp : p x = false := by
          rcases hh : p x with _ | _
          · rfl
          · exact absurd (h x hh) hq
        rw [List.filter_cons_of_neg (by simp [hq]), ih,
          List.find?_cons_of_neg _ (by simp [hp])]

lemma dedupRec_mem_iff (l : List FeedItem) (it : FeedItem) :
    it ∈ dedupRec l ↔ l.find? (fun a => a.guid == it.guid) = some it := by
  have key : ∀ n (l : List FeedItem), l.length ≤ n → ∀ it,
      (it ∈ dedupRec l ↔ l.find? (fun a => a.guid == it.guid) = some it) := by
    intro n
    induction n with
    | zero =>
        intro l hl it
        have : l = [] := List.length_eq_zero.mp (Nat.le_zero.mp hl)
        subst this
        simp [dedupRec]
    | succ n ih =>
        intro l hl it
        cases l with
        | nil => simp [dedupRec]
        | cons x xs =>
            simp only [List.length_cons, Nat.succ_le_succ_iff] at hl
            rw [dedupRec]
            constructor
            · intro hmem
              rcases List.mem_cons.mp hmem with rfl | hmem2
              · exact List.find?_cons_of_pos xs (by simp)
              · have hgne : it.guid ≠ x.guid := by
                  have hit2 : it ∈ xs.filter (fun y => !(y.guid == x.guid)) :=
                    (dedupRec_sublist _).subset hmem2
                  have := List.of_mem_filter hit2
                  simpa using this
                have hred : (x :: xs).find? (fun a => a.guid == it.guid) =
                    xs.find? (fun a => a.guid == it.guid) :=
                  List.find?_cons_of_neg xs
                    (by simp only [beq_iff_eq]; exact fun he => hgne he.symm)
                rw [hred]
                have hiff := ih (xs.filter (fun y => !(y.guid == x.guid)))
                  (le_trans (List.length_filter_le _ xs) hl) it
                rw [← find?_filter_comm (fun a => a.guid == it.guid)
                  (fun y => !(y.guid == x.guid)) xs ?_]
                · exact hiff.mp hmem2
                · intro y hy
                  simp only [beq_iff_eq] at hy
                  simpa [hy] using hgne
            · intro hfind
              by_cases hx : (x.guid == it.guid) = true
              · have hred : (x :: xs).find? (fun a => a.guid == it.guid) = some x :=
                  List.find?_cons_of_pos xs hx
                rw [hred] at hfind
                exact List.mem_cons.mpr (Or.inl (Option.some.inj hfind).symm)
              · have hred : (x :: xs).find? (fun a => a.guid == it.guid) =
                    xs.find? (fun a => a.guid == it.guid) :=
                  List.find?_cons_of_neg xs hx
                rw [hred] at hfind
                refine List.mem_cons.mpr (Or.inr ?_)
                have hgne : it.guid ≠ x.guid := by
                  intro he
                  exact hx (by simp [he])
                have hiff := ih (xs.filter (fun y => !(y.guid == x.guid)))
                  (le_trans (List.length_filter_le _ xs) hl) it
                refine hiff.mpr ?_
                rw [find?_filter_comm (fun a => a.guid == it.guid)
                  (fun y => !(y.guid == x.guid)) xs ?_]
                · exact hfind
                · intro y hy
                  simp only [beq_iff_eq] at hy
                  simpa [hy] using hgne
  exact key l.length l le_rfl it

lemma dedupRec_eq_self (l : List FeedItem)
    (h : (l.map (fun it => it.guid)).Nodup) : dedupRec l = l := by
  have key : ∀ n (l : List FeedItem), l.length ≤ n →
      (l.map (fun it => it.guid)).Nodup → dedupRec l = l := by
    intro n
    induction n with
    | zero =>
        intro l hl _
        have : l = [] := List.length_eq_zero.mp (Nat.le_zero.mp hl)
        subst this
        simp [dedupRec]
    | succ n ih =>
        intro l hl hn
        cases l with
        | nil => simp [dedupRec]
        | cons x xs =>
            simp only [List.length_cons, Nat.succ_le_succ_iff] at hl
            rw [List.map_cons, List.nodup_cons] at hn
            have hfil : xs.filter (fun y => !(y.guid == x.guid)) = xs := by
              rw [List.filter_eq_self]
              intro y hy
              simp only [Bool.not_eq_true', beq_eq_false_iff_ne]
              intro he
              exact hn.1 (he ▸ List.mem_map_of_mem _ hy)
            rw [dedupRec, hfil, ih xs hl hn.2]
  exact key l.length l le_rfl h

/-! ## Lemmas on the stable sort -/

lemma sortInsert_perm (x : FeedItem) (l : List FeedItem) :
    List.Perm (sortInsert x l) (x :: l) := by
  induction l with
  | nil => exact List.Perm.refl _
  | cons y ys ih =>
      rw [sortInsert]
      by_cases hc : y.pubDate ≤ x.pubDate
      · rw [if_pos hc]
      · rw [if_neg hc]
        exact (ih.cons y).trans (List.Perm.swap x y ys)

lemma sortByDateDesc_perm (l : List FeedItem) : List.Perm (sortByDateDesc l) l := by
  induction l with
  | nil => exact List.Perm.refl _
  | cons x xs ih =>
      have hstep : sortByDateDesc (x :: xs) = sortInsert x (sortByDateDesc xs) := rfl
      rw [hstep]
      exact (sortInsert_perm x _).trans (ih.cons x)

lemma sortInsert_sorted (x : FeedItem) (l : List FeedItem)
    (h : l.Pairwise (fun a b => b.pubDate ≤ a.pubDate)) :
    (sortInsert x l).Pairwise (fun a b => b.pubDate ≤ a.pubDate) := by
  induction l with
  | nil => simp [sortInsert]
  | cons y ys ih =>
      rw [List.pairwise_cons] at h
      rw [sortInsert]
      by_cases hc : y.pubDate ≤ x.pubDate
      · rw [if_pos hc]
        rw [List.pairwise_cons]
        refine ⟨?_, List.pairwise_cons.mpr h⟩
        intro z hz
        rcases List.mem_cons.mp hz with rfl | hz2
        · exact hc
        · exact le_trans (h.1 z hz2) hc
      · rw [if_neg hc]
        rw [List.pairwise_cons]
        refine ⟨?_, ih h.2⟩
        intro z hz
        have hz3 := (sortInsert_perm x ys).mem_iff.mp hz
        rcases List.mem_cons.mp hz3 with rfl | hz2
        · exact le_of_lt (lt_of_not_le hc)
        · exact h.1 z hz2

lemma sortByDateDesc_sorted (l : List FeedItem) :
    (sortByDateDesc l).Pairwise (fun a b => b.pubDate ≤ a.pubDate) := by
  induction l with
  | nil => simp [sortByDateDesc]
  | cons x xs ih => exact sortInsert_sorted x _ ih

lemma sortInsert_filter_neg (x : FeedItem) (l : List FeedItem) (t : Int)
    (h : (x.pubDate == t) = false) :
    (sortInsert x l).filter (fun it => it.pubDate == t) =
      l.filter (fun it => it.pubDate == t) := by
  induction l with
  | nil => simp [sortInsert, h]
  | cons y ys ih =>
      rw [sortInsert]
      by_cases hc : y.pubDate ≤ x.pubDate
      · rw [if_pos hc]
        have hred : (x :: y :: ys).filter (fun it => it.pubDate == t) =
            (y :: ys).filter (fun it => it.pubDate == t) :=
          List.filter_cons_of_neg (by simp [h])
        rw [hred]
      · rw [if_neg hc]
        by_cases hy : (y.pubDate == t) = true
        · have h1 : (y :: sortInsert x ys).filter (fun it => it.pubDate == t) =
              y :: (sortInsert x ys).filter (fun it => it.pubDate == t) :=
            List.filter_cons_of_pos hy
          have h2 : (y :: ys).filter (fun it => it.pubDate == t) =
              y :: ys.filter (fun it => it.pubDate == t) :=
            List.filter_cons_of_pos hy
          rw [h1, h2, ih]
        · have h1 : (y :: sortInsert x ys).filter (fun it => it.pubDate == t) =
              (sortInsert x ys).filter (fun it => it.pubDate == t) :=
            List.filter_cons_of_neg hy
          have h2 : (y :: ys).filter (fun it => it.pubDate == t) =
              ys.filter (fun it => it.pubDate == t) :=
            List.filter_cons_of_neg hy
          rw [h1, h2, ih]

lemma sortInsert_filter_pos (x : FeedItem) (l : List FeedItem) (t : Int)
    (h : (x.pubDate == t) = true) :
    (sortInsert x l).filter (fun it => it.pubDate == t) =
      x :: l.filter (fun it => it.pubDate == t) := by
  induction l with
  | nil => simp [sortInsert, h]
  | cons y ys ih =>
      rw [sortInsert]
      by_cases hc : y.pubDate ≤ x.pubDate
      · rw [if_pos hc]
        exact List.filter_cons_of_pos h
      · have hy : (y.pubDate == t) = false := by
          simp only [beq_iff_eq] at h
          simp only [beq_eq_false_iff_ne]
          intro he
          rw [he, ← h] at hc
          exact hc le_rfl
        have h1 : (y :: sortInsert x ys).filter (fun it => it.pubDate == t) =
            (sortInsert x ys).filter (fun it => it.pubDate == t) :=
          List.filter_cons_of_neg (by simp [hy])
        have h2 : (y :: ys).filter (fun it => it.pubDate == t) =
            ys.filter (fun it => it.pubDate == t) :=
          List.filter_cons_of_neg (by simp [hy])
        rw [if_neg hc, h1, h2, ih]

lemma sortByDateDesc_filter (l : List FeedItem) (t : Int) :
    (sortByDateDesc l).filter (fun it => it.pubDate == t) =
      l.filter (fun it => it.pubDate == t) := by
  induction l with
  | nil => rfl
  | cons x xs ih =>
      have hstep : sortByDateDesc (x :: xs) = sortInsert x (sortByDateDesc xs) := rfl
      rw [hstep]
      by_cases hx : (x.pubDate == t) = true
      · have h2 : (x :: xs).filter (fun it => it.pubDate == t) =
            x :: xs.filter (fun it => it.pubDate == t) :=
          List.filter_cons_of_pos hx
        rw [sortInsert_filter_pos x _ t hx, ih, h2]
      · have h2 : (x :: xs).filter (fun it => it.pubDate == t) =
            xs.filter (fun it => it.pubDate == t) :=
          List.filter_cons_of_neg hx
        rw [sortInsert_filter_neg x _ t (by simpa using hx), ih, h2]

/-! ## Lemmas on the extraction pass -/

/-- Each run of the anchor-loop callback (lines 124–160) either leaves the
state unchanged or pushes exactly one item, whose guid and link are the
resolved href and whose key was fresh. -/
lemma processAnchor_cases (st : ExtractState) (a : HNode) :
    processAnchor st a = st ∨
    ∃ href title date descr,
      a.hrefAttr = some href ∧
      itemKey title date ∉ st.seen ∧
      processAnchor st a =
        ⟨itemKey title date :: st.seen,
         st.items ++ [⟨title, fullLinkOf href, fullLinkOf href, date, descr⟩]⟩ := by
  cases ha : a.hrefAttr with
  | none => left; simp [processAnchor, ha]
  | some href =>
      by_cases h1 : hasNyheter href = true
      · by_cases h2 : ((descElems a).filter (hasClass "iteminformation")).isEmpty = true
        · left; simp [processAnchor, ha, h1, h2]
        · by_cases h3 :
            jsTrim (selText (findIn ((descElems a).filter (hasClass "iteminformation"))
              (fun n => n.tag == "h3"))) = "" ∨
            jsTrim (selText (findIn ((descElems a).filter (hasClass "iteminformation"))
              (hasClass "itemdate"))) = ""
          · left; simp [processAnchor, ha, h1, h2, h3]
          · cases hp : parseSwedishDate
              (jsTrim (selText (findIn ((descElems a).filter (hasClass "iteminformation"))
                (hasClass "itemdate")))) with
            | none => left; simp [processAnchor, ha, h1, h2, h3, hp]
            | some date =>
                by_cases h4 : itemKey
                    (jsTrim (selText (findIn ((descElems a).filter
                      (hasClass "iteminformation")) (fun n => n.tag == "h3")))) date ∈
                    st.seen
                · left; simp [processAnchor, ha, h1, h2, h3, hp, h4]
                · right
                  refine ⟨href,
                    jsTrim (selText (findIn ((descElems a).filter
                      (hasClass "iteminformation")) (fun n => n.tag == "h3"))), date,
                    jsTrim (selText (findIn ((descElems a).filter
                      (hasClass "iteminformation")) (hasClass "itemdescription"))),
                    rfl, h4, ?_⟩
                  simp [processAnchor, ha, h1, h2, h3, hp, h4]
      · left; simp [processAnchor, ha, h1]

/-- Folding the callback keeps the item keys nodup, given the `seen` set
covers the keys already pushed. -/
lemma foldl_keys_nodup (anchors : List HNode) : ∀ st : ExtractState,
    (st.items.map keyOf).Nodup → (∀ k ∈ st.items.map keyOf, k ∈ st.seen) →
    ((anchors.foldl processAnchor st).items.map keyOf).Nodup := by
  induction anchors with
  | nil => intro st h1 _; exact h1
  | cons a as ih =>
      intro st h1 h2
      rw [List.foldl_cons]
      rcases processAnchor_cases st a with he | ⟨href, title, date, descr, -, hnot, he⟩
      · rw [he]; exact ih st h1 h2
      · rw [he]
        refine ih _ ?_ ?_
        · show ((st.items ++ [(⟨title, fullLinkOf href, fullLinkOf href, date, descr⟩ :
            FeedItem)]).map keyOf).Nodup
          rw [List.map_append]
          rw [List.nodup_append]
          refine ⟨h1, by simp, ?_⟩
          intro k hk
          simp only [List.map_cons, List.map_nil, List.mem_singleton]
          intro hk2
          rw [hk2] at hk
          have : itemKey title date ∈ st.seen := h2 _ hk
          exact hnot this
        · intro k hk
          simp only [List.map_append, List.mem_append, List.map_cons, List.map_nil,
            List.mem_singleton] at hk
          show k ∈ itemKey title date :: st.seen
          rcases hk with hk | hk
          · exact List.mem_cons.mpr (Or.inr (h2 k hk))
          · exact List.mem_cons.mpr (Or.inl hk)

/-- Every item produced by the fold either was already there or came from
some anchor, with guid = link = resolved href. -/
lemma foldl_link_shape (anchors : List HNode) : ∀ st : ExtractState,
    ∀ it ∈ (anchors.foldl processAnchor st).items,
      it ∈ st.items ∨ ∃ a ∈ anchors, ∃ href, a.hrefAttr = some href ∧
        it.link = fullLinkOf href ∧ it.guid = fullLinkOf href := by
  induction anchors with
  | nil => intro st it h; left; exact h
  | cons a as ih =>
      intro st it h
      rw [List.foldl_cons] at h
      rcases ih (processAnchor st a) it h with hmem | ⟨a2, ha2, href, h3, h4, h5⟩
      · rcases processAnchor_cases st a with he | ⟨href, title, date, descr, hhref, -, he⟩
        · rw [he] at hmem; left; exact hmem
        · rw [he] at hmem
          simp only [List.mem_append, List.mem_singleton] at hmem
          rcases hmem with hmem | rfl
          · left; exact hmem
          · right
            exact ⟨a, by simp, href, hhref, rfl, rfl⟩
      · right
        exact ⟨a2, by simp [ha2], href, h3, h4, h5⟩

/-- Items of the final output all come from the candidate list. -/
lemma extract_mem (doc : List HNode) (it : FeedItem) (h : it ∈ extractItems doc) :
    it ∈ collectCandidates doc := by
  have h1 : it ∈ sortByDateDesc (dedupByGuid (collectCandidates doc)) :=
    (List.take_sublist 50 _).subset h
  have h2 : it ∈ dedupByGuid (collectCandidates doc) :=
    (sortByDateDesc_perm _).mem_iff.mp h1
  rw [dedupByGuid_eq_rec] at h2
  exact (dedupRec_sublist _).subset h2

/-! ## Lemmas on link resolution -/

lemma isAbs_https (d : List Char) :
    isAbsoluteUrl ⟨'h' :: 't' :: 't' :: 'p' :: 's' :: ':' :: d⟩ := by
  simp [isAbsoluteUrl, hasSchemeTail, isAlphaNumCh]

lemma resolve_absolute (href : String) : isAbsoluteUrl (resolveAgainstSource href) := by
  obtain ⟨d⟩ := href
  rw [resolveAgainstSource]
  by_cases h1 : strStartsWith ⟨d⟩ "//" = true
  · rw [if_pos h1]
    exact isAbs_https _
  · rw [if_neg h1]
    by_cases h2 : strStartsWith ⟨d⟩ "/" = true
    · rw [if_pos h2, SOURCE_ORIGIN]
      exact isAbs_https _
    · rw [if_neg h2, SOURCE_URL]
      exact isAbs_https _

/-- The resolved link of any href either starts with `http` (kept
verbatim) or is an absolute URL (resolved against the source URL). -/
lemma fullLinkOf_abs (href : String) :
    strStartsWith (fullLinkOf href) "http" = true ∨ isAbsoluteUrl (fullLinkOf href) := by
  rw [fullLinkOf]
  by_cases h : strStartsWith href "http" = true
  · rw [if_pos h]; left; exact h
  · rw [if_neg h]; right; exact resolve_absolute href

/-! ## Evaluating the extraction on structured news anchors -/

lemma str_empty_append (s : String) : "" ++ s = s := by
  obtain ⟨d⟩ := s
  rfl

lemma str_append_empty (s : String) : s ++ "" = s := by
  obtain ⟨d⟩ := s
  show (⟨d ++ []⟩ : String) = ⟨d⟩
  rw [List.append_nil]

/-- The anchor-loop callback on a structured news anchor: the title, date
and description are the trimmed text contents of the `.iteminformation`
block. -/
lemma processAnchor_news (st : ExtractState) (href rawTitle dateTxt descTxt : String)
    (hn : hasNyheter href = true) :
    processAnchor st (newsAnchor href rawTitle dateTxt descTxt) =
      if jsTrim rawTitle = "" ∨ jsTrim dateTxt = "" then st
      else
        match parseSwedishDate (jsTrim dateTxt) with
        | none => st
        | some date =>
            if itemKey (jsTrim rawTitle) date ∈ st.seen then st
            else ⟨itemKey (jsTrim rawTitle) date :: st.seen,
              st.items ++ [⟨jsTrim rawTitle, fullLinkOf href, fullLinkOf href, date,
                jsTrim descTxt⟩]⟩ := by
  have h1 : (newsAnchor href rawTitle dateTxt descTxt).hrefAttr = some href := rfl
  have h2 : (descElems (newsAnchor href rawTitle dateTxt descTxt)).filter
      (hasClass "iteminformation") = [infoBlock rawTitle dateTxt descTxt] := rfl
  have hT : jsTrim (selText (findIn [infoBlock rawTitle dateTxt descTxt]
      (fun n => n.tag == "h3"))) = jsTrim rawTitle := by
    rw [show selText (findIn [infoBlock rawTitle dateTxt descTxt]
      (fun n => n.tag == "h3")) = "" ++ (rawTitle ++ "") from rfl,
      str_empty_append, str_append_empty]
  have hD : jsTrim (selText (findIn [infoBlock rawTitle dateTxt descTxt]
      (hasClass "itemdate"))) = jsTrim dateTxt := by
    rw [show selText (findIn [infoBlock rawTitle dateTxt descTxt]
      (hasClass "itemdate")) = "" ++ (dateTxt ++ "") from rfl,
      str_empty_append, str_append_empty]
  have hE : jsTrim (selText (findIn [infoBlock rawTitle dateTxt descTxt]
      (hasClass "itemdescription"))) = jsTrim descTxt := by
    rw [show selText (findIn [infoBlock rawTitle dateTxt descTxt]
      (hasClass "itemdescription")) = "" ++ (descTxt ++ "") from rfl,
      str_empty_append, str_append_empty]
  simp only [processAnchor, h1]
  rw [if_pos hn, h2]
  rw [if_neg (show ¬([infoBlock rawTitle dateTxt descTxt].isEmpty = true) by simp)]
  rw [hT, hD, hE]

/-! ## Claim theorems: date parsing (C2, C3, C10) -/

/-- C2 (amended): for every day/month/year triple rendered as
`<1-2 digit day> <Swedish month name, any letter case> <4-digit year>`
(with arbitrary whitespace separators), `parseSwedishDate` returns the
instant at 12:00:00 UTC whose UTC calendar date is the triple — with the
year first put through ECMAScript's `Date.UTC` coercion sending 0–99 to
1900–1999 (so only for years ≥ 100 is the UTC year literally the written
year), and provided the day exists in that calendar month; and it returns
`null` on any text in which the pattern does not occur. -/
theorem c2_parse_valid_triples :
    (∀ (ds w1 ms w2 ys : List Char) (mi d y : Nat),
      ds ≠ [] → ds.length ≤ 2 → (∀ c ∈ ds, isDigitCh c = true) →
      w1 ≠ [] → (∀ c ∈ w1, isWsCh c = true) →
      mi < 12 → ms.map lcCh = monthNames.getD mi [] →
      w2 ≠ [] → (∀ c ∈ w2, isWsCh c = true) →
      ys.length = 4 → (∀ c ∈ ys, isDigitCh c = true) →
      parseDigitsVal ds = d → parseDigitsVal ys = y →
      1 ≤ d → d ≤ daysInMonth mi (yearAdjust y) →
      parseSwedishDate ⟨ds ++ w1 ++ ms ++ w2 ++ ys⟩ = some (jsDateUTC y mi d) ∧
      utcDateIs (jsDateUTC y mi d) (yearAdjust y) mi d ∧
      jsDateUTC y mi d % 86400000 = 43200000) ∧
    (∀ text : String, (∀ i, ¬ IsMatchAt (text.data.drop i)) →
      parseSwedishDate text = none) := by
  constructor
  · intro ds w1 ms w2 ys mi d y h1 h2 h3 h4 h5 h6 h7 h8 h9 h10 h11 h12 h13 h14 h15
    subst h12; subst h13
    have hmd : MatchDecomp (ds ++ w1 ++ ms ++ w2 ++ ys ++ []) ds w1 ms w2 ys [] mi :=
      ⟨h1, h2, h3, h4, h5, h6, h7, h8, h9, h10, h11, rfl⟩
    have hp := parse_eval ds w1 ms w2 ys [] mi hmd
    rw [List.append_nil] at hp
    refine ⟨hp, ?_, ?_⟩
    · exact utc_of_makeDay (yearAdjust (parseDigitsVal ys)) mi (parseDigitsVal ds) h6 h14 h15
    · have he : jsDateUTC (parseDigitsVal ys) mi (parseDigitsVal ds) =
          makeDay (yearAdjust (parseDigitsVal ys)) mi (parseDigitsVal ds) * 86400000 +
            43200000 := rfl
      omega
  · intro text hno
    rcases searchFrom_spec text.data with ⟨h1, -⟩ | ⟨j, r, -, h2, -⟩
    · simp [parseSwedishDate, h1]
    · exfalso
      refine hno j ((matchAt_isSome_iff _).mp ?_)
      rw [h2]; rfl

/-- C2, counterexample to the claim as stated: `1 januari 0023` is a
calendar-valid triple written with a 4-digit year, but `Date.UTC` reads
year 23 as 1923, so the UTC calendar date of the result is 1923-01-01,
not 0023-01-01. -/
theorem c2_year_coercion_cex :
    parseSwedishDate "1 januari 0023" = some (jsDateUTC 23 0 1) ∧
    utcDateIs (jsDateUTC 23 0 1) 1923 0 1 ∧ ¬ utcDateIs (jsDateUTC 23 0 1) 23 0 1 :=
  ⟨by decide, by decide, by decide⟩

/-- C2, witness: the amended theorem at `02 november 2025`. -/
theorem c2_parse_valid_triples_witness :
    parseSwedishDate "02 november 2025" = some (jsDateUTC 2025 10 2) ∧
    utcDateIs (jsDateUTC 2025 10 2) 2025 10 2 ∧
    jsDateUTC 2025 10 2 % 86400000 = 43200000 := by
  have h := c2_parse_valid_triples.1 "02".data " ".data "november".data " ".data
    "2025".data 10 2 2025 (by decide) (by decide) (by decide) (by decide) (by decide)
    (by decide) (by decide) (by decide) (by decide) (by decide) (by decide) (by decide)
    (by decide) (by decide) (by decide)
  have hs : (⟨"02".data ++ " ".data ++ "november".data ++ " ".data ++ "2025".data⟩ :
      String) = "02 november 2025" := by decide
  rw [hs] at h
  have hy : yearAdjust 2025 = 2025 := by decide
  rw [hy] at h
  exact h

/-- C3 (amended): `parseSwedishDate` does not validate the calendar: any
text of the pattern shape parses to `Date.UTC` of its groups, which rolls
a nonexistent day over into the next month rather than rejecting it — in
particular `29 februari 2023` parses, is emitted by extraction, and its
UTC calendar date is 2023-03-01.  Only texts in which the pattern does not
occur are discarded. -/
theorem c3_rollover_not_reject :
    (∀ (ds w1 ms w2 ys : List Char) (mi : Nat),
      ds ≠ [] → ds.length ≤ 2 → (∀ c ∈ ds, isDigitCh c = true) →
      w1 ≠ [] → (∀ c ∈ w1, isWsCh c = true) →
      mi < 12 → ms.map lcCh = monthNames.getD mi [] →
      w2 ≠ [] → (∀ c ∈ w2, isWsCh c = true) →
      ys.length = 4 → (∀ c ∈ ys, isDigitCh c = true) →
      parseSwedishDate ⟨ds ++ w1 ++ ms ++ w2 ++ ys⟩ =
        some (jsDateUTC (parseDigitsVal ys) mi (parseDigitsVal ds))) ∧
    extractItems rolloverDoc = [⟨"Extrastämma", "https://www.hsb.se/x/nyheter/a",
      "https://www.hsb.se/x/nyheter/a", jsDateUTC 2023 1 29, ""⟩] ∧
    utcDateIs (jsDateUTC 2023 1 29) 2023 2 1 := by
  refine ⟨?_, by decide, by decide⟩
  intro ds w1 ms w2 ys mi h1 h2 h3 h4 h5 h6 h7 h8 h9 h10 h11
  have hmd : MatchDecomp (ds ++ w1 ++ ms ++ w2 ++ ys ++ []) ds w1 ms w2 ys [] mi :=
    ⟨h1, h2, h3, h4, h5, h6, h7, h8, h9, h10, h11, rfl⟩
  have hp := parse_eval ds w1 ms w2 ys [] mi hmd
  rwa [List.append_nil] at hp

/-- C3, counterexample to the claim as stated: on the nonexistent date
`29 februari 2023` the parser does not reject — it returns an instant,
whose UTC calendar date is the rolled-over 2023-03-01. -/
theorem c3_rollover_cex :
    parseSwedishDate "29 februari 2023" = some (jsDateUTC 2023 1 29) ∧
    utcDateIs (jsDateUTC 2023 1 29) 2023 2 1 :=
  ⟨by decide, by decide⟩

/-- C3, witness: the amended theorem's universal part at `29 februari 2023`. -/
theorem c3_rollover_not_reject_witness :
    parseSwedishDate "29 februari 2023" = some (jsDateUTC 2023 1 29) ∧
    jsDateUTC 2023 1 29 = jsDateUTC 2023 2 1 := by
  have h := c3_rollover_not_reject.1 "29".data " ".data "februari".data " ".data
    "2023".data 1 (by decide) (by decide) (by decide) (by decide) (by decide)
    (by decide) (by decide) (by decide) (by decide) (by decide) (by decide)
  have hs : (⟨"29".data ++ " ".data ++ "februari".data ++ " ".data ++ "2023".data⟩ :
      String) = "29 februari 2023" := by decide
  rw [hs] at h
  exact ⟨h, by decide⟩

/-- C10: the date pattern is matched anywhere inside the text, not
anchored: whenever the pattern occurs at some position, there is a
leftmost occurrence, and `parseSwedishDate` returns `Date.UTC` of the
groups of precisely that occurrence. -/
theorem c10_unanchored_first_occurrence :
    ∀ (text : String) (i : Nat), IsMatchAt (text.data.drop i) →
    ∃ j, j ≤ i ∧ IsMatchAt (text.data.drop j) ∧
      (∀ k < j, ¬ IsMatchAt (text.data.drop k)) ∧
      ∀ ds w1 ms w2 ys rest mi,
        MatchDecomp (text.data.drop j) ds w1 ms w2 ys rest mi →
        parseSwedishDate text =
          some (jsDateUTC (parseDigitsVal ys) mi (parseDigitsVal ds)) := by
  intro text i hi
  rcases searchFrom_spec text.data with ⟨-, h2⟩ | ⟨j, r, h1, h2, h3⟩
  · exfalso
    have hs := (matchAt_isSome_iff (text.data.drop i)).mpr hi
    rw [h2 i] at hs
    cases hs
  · refine ⟨j, ?_, ?_, ?_, ?_⟩
    · by_contra hji
      have hs := (matchAt_isSome_iff (text.data.drop i)).mpr hi
      rw [h3 i (by omega)] at hs
      cases hs
    · exact (matchAt_isSome_iff _).mp (by rw [h2]; rfl)
    · intro k hk hmk
      have hs := (matchAt_isSome_iff (text.data.drop k)).mpr hmk
      rw [h3 k hk] at hs
      cases hs
    · intro ds w1 ms w2 ys rest mi hmd
      have hmaj := matchAt_decomp (text.data.drop j) ds w1 ms w2 ys rest mi hmd
      have hr : r = (ds, ms, ys) := by
        rw [hmaj] at h2
        exact (Option.some.inj h2).symm
      obtain ⟨-, -, -, -, -, hmi, hms, -⟩ := hmd
      have hlook : SWEDISH_MONTHS.lookup (ms.map lcCh) = some mi := by
        rw [hms]; exact month_lookup mi hmi
      subst hr
      simp only [parseSwedishDate, h1, hlook]

/-- C10, witness: in `Publicerad 2 november 2025!` the pattern occurs only
at position 11, and the parser returns that occurrence's date. -/
theorem c10_unanchored_witness :
    parseSwedishDate "Publicerad 2 november 2025!" = some (jsDateUTC 2025 10 2) := by
  have hd : MatchDecomp ("Publicerad 2 november 2025!".data.drop 11) "2".data
      " ".data "november".data " ".data "2025".data "!".data 10 := by
    refine ⟨by decide, by decide, by decide, by decide, by decide, by decide,
      by decide, by decide, by decide, by decide, by decide, by decide⟩
  obtain ⟨j, hj, hjm, hleast, hval⟩ := c10_unanchored_first_occurrence
    "Publicerad 2 november 2025!" 11
    ⟨"2".data, " ".data, "november".data, " ".data, "2025".data, "!".data, 10, hd⟩
  have hnone : ∀ k, k < 11 → ¬ IsMatchAt ("Publicerad 2 november 2025!".data.drop k) := by
    intro k hk hm
    have hs := (matchAt_isSome_iff _).mpr hm
    interval_cases k <;> revert hs <;> decide
  have hj11 : j = 11 := by
    rcases Nat.lt_or_ge j 11 with hlt | hge
    · exact absurd hjm (hnone j hlt)
    · omega
  subst hj11
  exact hval "2".data " ".data "november".data " ".data "2025".data "!".data 10 hd

/-! ## Claim theorems: deduplication, sorting, links, fallback, main
(C4, C5, C8, C1, C6, C7) -/

/-- C4: deduplication is two ordered passes, each keeping the first
occurrence: the candidate list as pushed never repeats an identity key
(`title::toISOString`), the guid pass is an order-preserving selection
keeping exactly the first item of each guid, and in the emitted collection
every guid occurs exactly once. -/
theorem c4_two_pass_dedup :
    (∀ doc : List HNode, ((collectCandidates doc).map keyOf).Nodup) ∧
    (∀ l : List FeedItem,
      List.Sublist (dedupByGuid l) l ∧
      (∀ it, it ∈ dedupByGuid l ↔ l.find? (fun a => a.guid == it.guid) = some it)) ∧
    (∀ doc : List HNode, ((extractItems doc).map (fun it => it.guid)).Nodup) := by
  refine ⟨?_, ?_, ?_⟩
  · intro doc
    exact foldl_keys_nodup _ ⟨[], []⟩ (by simp) (by simp)
  · intro l
    rw [dedupByGuid_eq_rec]
    exact ⟨dedupRec_sublist l, fun it => dedupRec_mem_iff l it⟩
  · intro doc
    have h1 := dedupRec_guid_nodup (collectCandidates doc)
    rw [← dedupByGuid_eq_rec] at h1
    have h2 : ((sortByDateDesc (dedupByGuid (collectCandidates doc))).map
        (fun it => it.guid)).Nodup :=
      (((sortByDateDesc_perm _).map _).nodup_iff).mpr h1
    exact List.Nodup.sublist ((List.take_sublist 50 _).map _) h2

/-- C5: the emitted list is the guid-deduplicated candidates sorted by
date descending (stable: per-date slices keep encounter order) and capped
at 50; with 51 candidates of pairwise distinct guids and dates, exactly 50
are emitted and precisely the strictly oldest one is dropped. -/
theorem c5_sorted_capped_stable :
    ∀ l : List FeedItem,
      (finalize l).Pairwise (fun a b => b.pubDate ≤ a.pubDate) ∧
      (finalize l).length ≤ 50 ∧
      (∀ t : Int, (sortByDateDesc (dedupByGuid l)).filter (fun it => it.pubDate == t) =
        (dedupByGuid l).filter (fun it => it.pubDate == t)) ∧
      ((l.map (fun it => it.guid)).Nodup → (l.map (fun it => it.pubDate)).Nodup →
        l.length = 51 →
        ∃ w ∈ l, (∀ x ∈ l, x ≠ w → w.pubDate < x.pubDate) ∧ w ∉ finalize l ∧
          (∀ x ∈ l, x ≠ w → x ∈ finalize l) ∧ (finalize l).length = 50) := by
  intro l
  refine ⟨?_, ?_, ?_, ?_⟩
  · exact List.Pairwise.sublist (List.take_sublist 50 _) (sortByDateDesc_sorted _)
  · exact List.length_take_le 50 _
  · intro t
    exact sortByDateDesc_filter _ t
  · intro hg hd hlen
    have hded : dedupByGuid l = l := by
      rw [dedupByGuid_eq_rec]
      exact dedupRec_eq_self l hg
    have hperm : List.Perm (sortByDateDesc l) l := sortByDateDesc_perm l
    have hsort := sortByDateDesc_sorted l
    have hfin : finalize l = (sortByDateDesc l).take 50 := by rw [finalize, hded]
    have hlen2 : (sortByDateDesc l).length = 51 := by rw [hperm.length_eq, hlen]
    have hmapnd : ((sortByDateDesc l).map (fun it => it.pubDate)).Nodup :=
      ((hperm.map _).nodup_iff).mpr hd
    have hnd : (sortByDateDesc l).Nodup := hmapnd.of_map _
    have hdrop : ((sortByDateDesc l).drop 50).length = 1 := by
      rw [List.length_drop, hlen2]
    obtain ⟨w, hw⟩ := List.length_eq_one.mp hdrop
    have hsplit : sortByDateDesc l = (sortByDateDesc l).take 50 ++ [w] := by
      rw [← hw]
      exact (List.take_append_drop 50 _).symm
    have hwmem : w ∈ l := hperm.mem_iff.mp (by rw [hsplit]; simp)
    have hmin : ∀ x ∈ l, x ≠ w → w.pubDate < x.pubDate := by
      intro x hx hne
      have hxs : x ∈ sortByDateDesc l := hperm.mem_iff.mpr hx
      rw [hsplit] at hxs
      rcases List.mem_append.mp hxs with hxt | hxw
      · have hpair := hsplit ▸ hsort
        rw [List.pairwise_append] at hpair
        have hle : w.pubDate ≤ x.pubDate := hpair.2.2 x hxt w (by simp)
        have hneq : x.pubDate ≠ w.pubDate := by
          have hmap2 := hsplit ▸ hmapnd
          rw [List.map_append, List.nodup_append] at hmap2
          intro he
          exact hmap2.2.2 (List.mem_map_of_mem _ hxt) (by simp [he])
        omega
      · exact absurd (by simpa using hxw) hne
    refine ⟨w, hwmem, hmin, ?_, ?_, ?_⟩
    · rw [hfin]
      have hnd2 := hsplit ▸ hnd
      rw [List.nodup_append] at hnd2
      intro hwt
      exact hnd2.2.2 hwt (by simp)
    · intro x hx hne
      rw [hfin]
      have hxs : x ∈ sortByDateDesc l := hperm.mem_iff.mpr hx
      rw [hsplit] at hxs
      rcases List.mem_append.mp hxs with hxt | hxw
      · exact hxt
      · exact absurd (by simpa using hxw) hne
    · rw [hfin, List.length_take, hlen2]
      omega

/-- C5, witness: 51 distinct-guid, distinct-date candidates yield exactly
50 items, and the unique oldest one is dropped. -/
theorem c5_sorted_capped_stable_witness :
    (finalize demoFeed).length = 50 ∧
    (⟨"t0", "g0", "g0", (0 : Int), ""⟩ : FeedItem) ∉ finalize demoFeed := by
  obtain ⟨w, hwmem, hmin, hwnot, -, hlen⟩ :=
    (c5_sorted_capped_stable demoFeed).2.2.2 (by decide) (by decide) (by decide)
  refine ⟨hlen, ?_⟩
  have h0 : (⟨"t0", "g0", "g0", (0 : Int), ""⟩ : FeedItem) ∈ demoFeed := by decide
  by_cases he : w = (⟨"t0", "g0", "g0", (0 : Int), ""⟩ : FeedItem)
  · rw [← he]
    exact hwnot
  · exfalso
    have h1 := hmin _ h0 (fun hh => he hh.symm)
    have h4 : (⟨"t0", "g0", "g0", (0 : Int), ""⟩ : FeedItem).pubDate = 0 := rfl
    rw [h4] at h1
    have h2 : ∀ x ∈ demoFeed, (0 : Int) ≤ x.pubDate := by decide
    have h3 := h2 w hwmem
    omega

/-- C8 (amended): for every emitted item, guid equals link, and the link
is the resolution of the href of some anchor: kept verbatim when the
href starts with `http` (even when that href is not an absolute URL),
otherwise resolved against the fixed source URL into an absolute URL. -/
theorem c8_guid_is_resolved_link :
    ∀ doc : List HNode, ∀ it ∈ extractItems doc,
      it.guid = it.link ∧
      (∃ href ∈ anchorHrefs doc, it.link = fullLinkOf href) ∧
      (strStartsWith it.link "http" = true ∨ isAbsoluteUrl it.link) := by
  intro doc it hmem
  have hc := extract_mem doc it hmem
  rcases foldl_link_shape ((allElems doc).filter (fun n => n.tag == "a"))
      ⟨[], []⟩ it hc with h0 | ⟨a, hamem, href, hhref, hlink, hguid⟩
  · exact absurd h0 (by simp)
  · have hhref2 : href ∈ anchorHrefs doc :=
      List.mem_filterMap.mpr ⟨a, hamem, hhref⟩
    refine ⟨by rw [hguid, hlink], ⟨href, hhref2, hlink⟩, ?_⟩
    rw [hlink]
    exact fullLinkOf_abs href

/-- C8, counterexample to the claim as stated: an href that starts with
`http` but is not an absolute URL is emitted verbatim as link and guid. -/
theorem c8_nonabsolute_link_cex :
    extractItems oddHrefDoc = [⟨"Titel", "httpfoo/nyheter/a", "httpfoo/nyheter/a",
      jsDateUTC 2024 3 9, ""⟩] ∧ ¬ isAbsoluteUrl "httpfoo/nyheter/a" :=
  ⟨by decide, by decide⟩

/-- C8, witness: the amended theorem on the two-entry demo document. -/
theorem c8_guid_is_resolved_link_witness :
    demoItemA.guid = demoItemA.link ∧
    (∃ href ∈ anchorHrefs demoDoc, demoItemA.link = fullLinkOf href) ∧
    (strStartsWith demoItemA.link "http" = true ∨ isAbsoluteUrl demoItemA.link) :=
  c8_guid_is_resolved_link demoDoc demoItemA (by decide)

/-- C1 (amended): there is no fallback extraction strategy: when the
structure-aware pass pushes no candidates, the run emits no items at all —
also when the page text contains a `<title> <day> <month> <year>` line
that the pattern-based fallback described in the spec would have matched
(`slugify`
is defined in the script but never invoked). -/
theorem c1_no_fallback_strategy :
    ∀ doc : List HNode, collectCandidates doc = [] → extractItems doc = [] := by
  intro doc h
  rw [extractItems, finalize, h]
  rfl

/-- C1, counterexample to the claim as stated: a document whose block text
contains the pattern line `Städdag 9 april 2024` (which parses) but which
has no structured entries yields an empty run — no slug-fragment item is
synthesized. -/
theorem c1_no_fallback_cex :
    parseSwedishDate (nodesText fallbackDoc) = some (jsDateUTC 2024 3 9) ∧
    extractItems fallbackDoc = [] :=
  ⟨by decide, by decide⟩

/-- C1, witness: the amended theorem on the fallback document. -/
theorem c1_no_fallback_strategy_witness :
    collectCandidates fallbackDoc = [] ∧ extractItems fallbackDoc = [] := by
  have h : collectCandidates fallbackDoc = [] := by decide
  exact ⟨h, c1_no_fallback_strategy fallbackDoc h⟩

/-- C6: a non-success HTTP status or a thrown network/timeout error makes
the run exit with status 1 and write nothing. -/
theorem c6_fetch_failure_no_write :
    (∀ (r : FetchResponse) (load : String → List HNode) (now : String),
      r.ok = false → runMain (.response r) load now = ⟨1, none⟩) ∧
    (∀ (msg : String) (load : String → List HNode) (now : String),
      runMain (.netError msg) load now = ⟨1, none⟩) := by
  constructor
  · intro r load now h
    simp [runMain, h]
  · intro msg load now
    rfl

/-- C6, witness: an HTTP 500 response exits 1 without writing. -/
theorem c6_fetch_failure_no_write_witness :
    runMain (.response ⟨500, "Internal Server Error", "<html></html>"⟩)
      (fun _ => []) "Thu, 01 Jan 1970 12:00:00 GMT" = ⟨1, none⟩ :=
  c6_fetch_failure_no_write.1 ⟨500, "Internal Server Error", "<html></html>"⟩
    (fun _ => []) "Thu, 01 Jan 1970 12:00:00 GMT" (by decide)

/-- C7: when extraction yields zero items the run succeeds: it exits 0 and
writes the serialized RSS document, whose channel carries the full
metadata and no `item` element, and which is well-formed. -/
theorem c7_empty_feed_success :
    ∀ (r : FetchResponse) (load : String → List HNode) (now : String),
      r.ok = true → extractItems (load r.body) = [] →
      runMain (.response r) load now =
        ⟨0, some (xmlRender (rssDocument now []))⟩ ∧
      childNames (channelXml now []) = ["title", "description", "link", "atom:link",
        "language", "pubDate", "ttl", "generator"] ∧
      "item" ∉ childNames (channelXml now []) ∧
      xmlWF (rssDocument now []) = true := by
  intro r load now hok hempty
  refine ⟨?_, rfl, ?_, rfl⟩
  · simp [runMain, hok, hempty]
  · intro hmem
    rw [show childNames (channelXml now []) = ["title", "description", "link",
      "atom:link", "language", "pubDate", "ttl", "generator"] from rfl] at hmem
    simp at hmem

/-- C7, witness: a 200 response parsing to an empty document writes the
empty feed and exits 0. -/
theorem c7_empty_feed_success_witness :
    runMain (.response ⟨200, "OK", "<html></html>"⟩) (fun _ => [])
        "Thu, 01 Jan 1970 12:00:00 GMT" =
      ⟨0, some (xmlRender (rssDocument "Thu, 01 Jan 1970 12:00:00 GMT" []))⟩ ∧
    "item" ∉ childNames (channelXml "Thu, 01 Jan 1970 12:00:00 GMT" []) := by
  obtain ⟨h1, -, h3, -⟩ := c7_empty_feed_success ⟨200, "OK", "<html></html>"⟩
    (fun _ => []) "Thu, 01 Jan 1970 12:00:00 GMT" (by decide) (by decide)
  exact ⟨h1, h3⟩

/-- C9: two candidates with the same parsed date whose raw titles differ
only in leading/trailing whitespace (the whitespace normalization the
script applies is `trim`) get the same identity key and collapse to one
emitted item, the first. -/
theorem c9_whitespace_title_collapse :
    ∀ (raw1 h1 dt1 raw2 h2 dt2 : String) (t : Int),
      jsTrim raw1 = jsTrim raw2 → jsTrim raw1 ≠ "" →
      parseSwedishDate (jsTrim dt1) = some t → parseSwedishDate (jsTrim dt2) = some t →
      hasNyheter h1 = true → hasNyheter h2 = true →
      itemKey (jsTrim raw1) t = itemKey (jsTrim raw2) t ∧
      extractItems (twoAnchorDoc raw1 h1 dt1 raw2 h2 dt2) =
        [⟨jsTrim raw1, fullLinkOf h1, fullLinkOf h1, t, ""⟩] := by
  intro raw1 h1 dt1 raw2 h2 dt2 t he hne hp1 hp2 hn1 hn2
  have hkey : itemKey (jsTrim raw1) t = itemKey (jsTrim raw2) t := by rw [he]
  have hdt1 : jsTrim dt1 ≠ "" := by
    intro hh
    rw [hh] at hp1
    have hnil : parseSwedishDate "" = none := rfl
    rw [hnil] at hp1
    cases hp1
  have hne2 : jsTrim raw2 ≠ "" := by rw [← he]; exact hne
  have hdt2 : jsTrim dt2 ≠ "" := by
    intro hh
    rw [hh] at hp2
    have hnil : parseSwedishDate "" = none := rfl
    rw [hnil] at hp2
    cases hp2
  have hanch : (allElems (twoAnchorDoc raw1 h1 dt1 raw2 h2 dt2)).filter
      (fun n => n.tag == "a") =
      [newsAnchor h1 raw1 dt1 "", newsAnchor h2 raw2 dt2 ""] := rfl
  have hs1 : processAnchor ⟨[], []⟩ (newsAnchor h1 raw1 dt1 "") =
      ⟨[itemKey (jsTrim raw1) t],
       [⟨jsTrim raw1, fullLinkOf h1, fullLinkOf h1, t, ""⟩]⟩ := by
    rw [processAnchor_news ⟨[], []⟩ h1 raw1 dt1 "" hn1]
    rw [if_neg (by push_neg; exact ⟨hne, hdt1⟩)]
    simp only [hp1]
    rw [if_neg (by simp)]
    rfl
  have hs2 : processAnchor
      ⟨[itemKey (jsTrim raw1) t],
       [⟨jsTrim raw1, fullLinkOf h1, fullLinkOf h1, t, ""⟩]⟩
      (newsAnchor h2 raw2 dt2 "") =
      ⟨[itemKey (jsTrim raw1) t],
       [⟨jsTrim raw1, fullLinkOf h1, fullLinkOf h1, t, ""⟩]⟩ := by
    rw [processAnchor_news _ h2 raw2 dt2 "" hn2]
    rw [if_neg (by push_neg; exact ⟨hne2, hdt2⟩)]
    simp only [hp2]
    rw [if_pos (by rw [← hkey]; exact List.mem_singleton_self _)]
  have hcol : collectCandidates (twoAnchorDoc raw1 h1 dt1 raw2 h2 dt2) =
      [⟨jsTrim raw1, fullLinkOf h1, fullLinkOf h1, t, ""⟩] := by
    simp only [collectCandidates, hanch, List.foldl_cons, hs1, hs2, List.foldl_nil]
  refine ⟨hkey, ?_⟩
  show finalize (collectCandidates (twoAnchorDoc raw1 h1 dt1 raw2 h2 dt2)) = _
  rw [hcol]
  rfl

/-- C9, witness: `Vårstädning ` and `  Vårstädning` with the same date
collapse to a single item. -/
theorem c9_whitespace_title_collapse_witness :
    itemKey (jsTrim "Vårstädning ") (jsDateUTC 2024 3 9) =
      itemKey (jsTrim "  Vårstädning") (jsDateUTC 2024 3 9) ∧
    extractItems (twoAnchorDoc "Vårstädning " "/a/nyheter/1" "9 april 2024"
        "  Vårstädning" "/b/nyheter/2" " 9 april 2024 ") =
      [⟨jsTrim "Vårstädning ", fullLinkOf "/a/nyheter/1", fullLinkOf "/a/nyheter/1",
        jsDateUTC 2024 3 9, ""⟩] :=
  c9_whitespace_title_collapse "Vårstädning " "/a/nyheter/1" "9 april 2024"
    "  Vårstädning" "/b/nyheter/2" " 9 april 2024 " (jsDateUTC 2024 3 9)
    (by decide) (by decide) (by decide) (by decide) (by decide) (by decide)

end Svetsaren
